import Mathlib

/-!
A verification development for the crossword CSP solver in
`src/crossword/generate.py` (class `CrosswordCreator`).

The grid model (`crossword.py`: classes `Variable` and `Crossword`) is not part
of the sources; its interface is modelled from the specification (sections 3
and 6). Everything in the `CrosswordCreator` class is translated directly from
`generate.py`:

* Python `set`s of words are modelled as `List Word` (iteration order is made
  explicit by the list; a `set` state corresponds to a duplicate-free list);
* the mutable domain store `self.domains` is a function `Variable → List Word`,
  mutation becomes explicit state passing (`Function.update`);
* the mutable `assignment` dict is an association list `List (Variable × Word)`
  threaded through the search;
* the work queue of `ac3` is a Python list used as a stack (`append`/`pop`);
  it is modelled as a `List` whose HEAD is the Python list's END;
* recursion/loops whose termination is not structural use an explicit fuel
  argument; the wrappers supply fuel that is provably sufficient.
-/

/-! ## Definitions -/

/-- Direction of a crossword slot (`Variable.ACROSS` / `Variable.DOWN`). -/
inductive Direction where
  | across
  | down
deriving DecidableEq, Repr

/-- Modelled from the spec (section 3): a `Variable` is a crossword slot with
start row, start column, direction and length; identity is structural over all
four attributes. -/
structure Variable where
  i : Nat
  j : Nat
  direction : Direction
  length : Nat
deriving DecidableEq, Repr

/-- A word is a string over the alphabet, modelled as a list of characters. -/
abbrev Word := List Char

/-- An assignment: the Python dict mapping Variables to words, modelled as an
association list (Python dicts preserve insertion order). -/
abbrev Assign := List (Variable × Word)

/-- The domain store `self.domains`: each Variable's current candidate words. -/
abbrev Store := Variable → List Word

/-- Modelled from the spec (sections 3 and 6): the grid model supplies the set
of Variables, the overlap lookup `overlap(x, y) -> Option (i, j)` and the word
dictionary. `crossword.py` is not among the sources, so this structure follows
the spec's interface description. -/
structure Crossword where
  vars : List Variable
  overlaps : Variable → Variable → Option (Nat × Nat)
  words : List Word

/-- Wellformedness of a grid model, from the spec (section 3): an overlap
relates an unordered pair of distinct variables, so there is no self overlap
and the lookup is symmetric with the index pair swapped. -/
def Crossword.WF (cw : Crossword) : Prop :=
  ∀ u ∈ cw.vars, ∀ v ∈ cw.vars,
    cw.overlaps u u = none ∧
    cw.overlaps v u = (cw.overlaps u v).map (fun p => (p.2, p.1))

instance (cw : Crossword) : Decidable cw.WF := by
  unfold Crossword.WF; infer_instance

/-- Modelled from the spec (section 6): `neighbors(var)` is the set of
variables with a recorded overlap to `var`. -/
def neighbors (cw : Crossword) (var : Variable) : List Variable :=
  cw.vars.filter (fun v => decide (v ≠ var) && (cw.overlaps var v).isSome)

/-- Python membership test `var in assignment` (a dict-key test). -/
def keyIn (v : Variable) (a : Assign) : Bool :=
  a.any (fun p => p.1 == v)

/-- Python dict lookup `assignment[v]`, as an `Option`. -/
def lookupA (a : Assign) (v : Variable) : Option Word :=
  (a.find? (fun p => p.1 == v)).map (fun p => p.2)

/-- Python `assignment.update({var: value})`: replace the value in place if
the key is present, otherwise append the new binding at the end. -/
def updateA (a : Assign) (var : Variable) (w : Word) : Assign :=
  if keyIn var a then a.map (fun p => if p.1 == var then (var, w) else p)
  else a ++ [(var, w)]

/-- Python `assignment.pop(var)`: drop the binding of `var`. -/
def popA (a : Assign) (var : Variable) : Assign :=
  a.filter (fun p => p.1 != var)

/-- `CrosswordCreator.__init__`: every variable's domain starts as a copy of
the full dictionary. -/
def initialDomains (cw : Crossword) : Store := fun _ => cw.words

/-- `CrosswordCreator.enforce_node_consistency`: for every variable remove the
words whose length differs from the variable's length (the Python code collects
them in `removelist` and then removes them from the set, which is the same as
keeping exactly the words of matching length). -/
def enforceNodeConsistency (cw : Crossword) (st : Store) : Store :=
  cw.vars.foldl
    (fun s var => Function.update s var
      ((s var).filter (fun word => var.length == word.length)))
    st

/-- The support test inside `CrosswordCreator.revise`: word `xword` of `x` is
arc consistent with `y` when some `yword` agrees at the overlap. Out-of-range
indexing (which would raise in Python) is modelled by `List.getD` with a blank
default; node consistency keeps every real run in range. -/
def hasSupport (st : Store) (y : Variable) (i j : Nat) (xword : Word) : Bool :=
  (st y).any (fun yword => xword.getD i ' ' == yword.getD j ' ')

/-- `CrosswordCreator.revise`: if `x` and `y` have a recorded overlap, remove
from `x`'s domain every word with no support in `y`'s domain and report whether
anything was removed; with no recorded overlap, do nothing and report `False`.
(In Python `overlaps.get((x, y))` yields `None` — falsy — exactly when no
overlap is recorded; a recorded index pair is always truthy.) -/
def revise (cw : Crossword) (st : Store) (x y : Variable) : Store × Bool :=
  match cw.overlaps x y with
  | none => (st, false)
  | some (i, j) =>
      (Function.update st x ((st x).filter (hasSupport st y i j)),
       (st x).any (fun w => ! hasSupport st y i j w))

/-- The initial arc list built by `CrosswordCreator.ac3` when called with no
arcs: one arc `(var, neighbor)` per variable and neighbor. The Python queue is
a list used as a stack (`append`/`pop` at the end); the model keeps the stack
with its top at the list HEAD, so `append` is `cons` and `pop` takes the head. -/
def initialArcs (cw : Crossword) : List (Variable × Variable) :=
  cw.vars.foldl
    (fun q var =>
      (neighbors cw var).foldl
        (fun q' nb => if var ≠ nb then (var, nb) :: q' else q') q)
    []

/-- The `while arcs:` loop of `CrosswordCreator.ac3`, with explicit fuel (the
Python loop terminates because every revision strictly shrinks a finite
domain). `none` in the first component means the fuel ran out, which the
wrapper's fuel bound avoids on every run a claim talks about. -/
def ac3Fuel (cw : Crossword) : Nat → List (Variable × Variable) → Store →
    Option Bool × Store
  | 0, _, st => (none, st)
  | _ + 1, [], st => (some true, st)
  | f + 1, (x, y) :: rest, st =>
      let r := revise cw st x y
      if r.2 then
        if (r.1 x).isEmpty then (some false, r.1)
        else
          ac3Fuel cw f
            (((neighbors cw x).filter (fun z => z ≠ y)).foldl
              (fun q z => (z, x) :: q) rest)
            r.1
      else ac3Fuel cw f rest r.1

/-- Total number of candidate words over all variables; used for the fuel
bound of `ac3`. -/
def totalSize (cw : Crossword) (st : Store) : Nat :=
  (cw.vars.map (fun v => (st v).length)).sum

/-- Fuel supplied to `ac3Fuel`: enough for the initial queue plus every
re-enqueue that any of the at most `totalSize` revisions can cause. -/
def bigFuel (cw : Crossword) (st : Store) : Nat :=
  totalSize cw st * (cw.vars.length + 1) + (initialArcs cw).length + 1

/-- `CrosswordCreator.ac3` called with its default argument (`arcs=None`), so
the queue is seeded with all arcs of the problem. Returns the reported Boolean
together with the final domain store. -/
def ac3 (cw : Crossword) (st : Store) : Option Bool × Store :=
  ac3Fuel cw (bigFuel cw st) (initialArcs cw) st

/-- `CrosswordCreator.assignment_complete`: every variable of the store (its
keys are the crossword's variables) is bound in the assignment. -/
def assignmentComplete (cw : Crossword) (a : Assign) : Bool :=
  cw.vars.all (fun var => keyIn var a)

/-- The per-neighbor conflict test inside `CrosswordCreator.consistent`: if
the neighbor is assigned, the two words must agree at the recorded overlap.
(`overlaps[var, neighbor]` is a recorded pair whenever `neighbor` comes from
`neighbors var`; the `none` branch is unreachable there.) -/
def pairOK (cw : Crossword) (afull : Assign) (var : Variable) (word : Word)
    (nb : Variable) : Bool :=
  match lookupA afull nb with
  | none => true
  | some wnb =>
      match cw.overlaps var nb with
      | some (i, j) => word.getD i ' ' == wnb.getD j ' '
      | none => true

/-- The loop of `CrosswordCreator.consistent`: `words` accumulates the words
seen so far (used for the global-uniqueness test `word in words`). -/
def consistentGo (cw : Crossword) (afull : Assign) :
    List Word → Assign → Bool
  | _, [] => true
  | words, (var, word) :: rest =>
      if var.length ≠ word.length ∨ word ∈ words then false
      else if (neighbors cw var).all (pairOK cw afull var word) then
        consistentGo cw afull (word :: words) rest
      else false

/-- `CrosswordCreator.consistent`: word lengths match, words are pairwise
distinct, and every assigned neighboring pair agrees at its overlap. -/
def consistent (cw : Crossword) (a : Assign) : Bool :=
  consistentGo cw a [] a

/-- The score computed for each candidate word by
`CrosswordCreator.order_domain_values`: the number of neighbors whose domain
contains the word. The Python guard `if value not in assignment:` tests the
word against the assignment's Variable keys, so it never skips; the count runs
for every word and it does NOT exclude assigned neighbors. -/
def codeScore (cw : Crossword) (st : Store) (var : Variable) (value : Word) :
    Nat :=
  ((neighbors cw var).filter (fun nb => decide (value ∈ st nb))).length

/-- Stable insertion used to model Python's stable ascending `sorted` by the
score component (equal scores keep their relative order). -/
def insertByScore (p : Word × Nat) : List (Word × Nat) → List (Word × Nat)
  | [] => [p]
  | q :: qs => if q.2 ≤ p.2 then q :: insertByScore p qs else p :: q :: qs

/-- Stable sort of the `(value, score)` list by ascending score, modelling
`sorted(reslist, key=lambda item: item[1])`. -/
def sortByScore : List (Word × Nat) → List (Word × Nat)
  | [] => []
  | p :: ps => insertByScore p (sortByScore ps)

/-- `CrosswordCreator.order_domain_values`: pair every domain word with its
score, sort by ascending score (stable), and return the words. -/
def orderDomainValues (cw : Crossword) (st : Store) (var : Variable)
    (assignment : Assign) : List Word :=
  (sortByScore ((st var).map
    (fun value => (value, codeScore cw st var value)))).map (fun p => p.1)

/-- The count of a domain as computed by the counting loop in
`CrosswordCreator.select_unassigned_variable`. -/
def domainCount (l : List Word) : Nat :=
  l.foldl (fun c _ => c + 1) 0

/-- Accumulator entries of `select_unassigned_variable`'s first loop: the
Python placeholder `[99999, 99999]` stores the integer sentinel `99999` where
a Variable would go; the sentinel slot is modelled as `none`. -/
abbrev MVEntry := Option Variable × Nat

/-- First loop of `CrosswordCreator.select_unassigned_variable`: track the
list of `[variable, count]` entries achieving the minimal domain count seen so
far, starting from the placeholder `[[99999, 99999]]`. -/
def suvLoop1 (st : Store) (a : Assign) :
    List MVEntry → List Variable → List MVEntry
  | mv, [] => mv
  | mv, v :: rest =>
      if keyIn v a then suvLoop1 st a mv rest
      else
        let c := domainCount (st v)
        let m := (mv.headD (none, 99999)).2
        if c < m then suvLoop1 st a [(some v, c)] rest
        else if c = m then suvLoop1 st a (mv ++ [(some v, c)]) rest
        else suvLoop1 st a mv rest

/-- The neighbor count used by the degree tie-break. On the sentinel entry the
Python code would look up `neighbors(99999)` and raise a `KeyError`; that is
modelled as count `0` and is unreachable whenever some unassigned variable's
domain holds fewer than `99999` words. -/
def degreeO (cw : Crossword) : Option Variable → Nat
  | none => 0
  | some v => (neighbors cw v).length

/-- Degree of a variable: its number of neighbors in the constraint graph. -/
def degree (cw : Crossword) (v : Variable) : Nat :=
  (neighbors cw v).length

/-- Second loop of `select_unassigned_variable` (the degree tie-break): scan
the tied entries keeping the first entry of maximal degree in `minvalues[0]`
(which starts with its count overwritten by `0`). -/
def suvLoop2 (cw : Crossword) : MVEntry → List MVEntry → MVEntry
  | best, [] => best
  | best, e :: rest =>
      let n := degreeO cw e.1
      if n > best.2 then suvLoop2 cw (e.1, n) rest
      else suvLoop2 cw best rest

/-- `CrosswordCreator.select_unassigned_variable`: minimum remaining values
with a degree tie-break. The returned `none` models the function falling
through to its integer placeholder `99999` instead of a Variable. -/
def selectUnassignedVariable (cw : Crossword) (st : Store) (a : Assign) :
    Option Variable :=
  let mv := suvLoop1 st a [(none, 99999)] cw.vars
  if 1 < mv.length then
    let h := mv.headD (none, 99999)
    (suvLoop2 cw (h.1, 0) ((h.1, 0) :: mv.tail)).1
  else (mv.headD (none, 99999)).1

/-- The `for value in self.order_domain_values(...)` loop of
`CrosswordCreator.backtrack`, with the recursive call abstracted as `bt`. The
second component is the final state of the mutated `assignment` dict. -/
def btList (cw : Crossword) (bt : Assign → Option Assign × Assign)
    (var : Variable) : Assign → List Word → Option Assign × Assign
  | a, [] => (none, a)
  | a, value :: rest =>
      let a1 := updateA a var value
      if consistent cw a1 then
        match bt a1 with
        | (some r, s) => (some r, s)
        | (none, s) => btList cw bt var (popA s var) rest
      else btList cw bt var (popA a1 var) rest

/-- `CrosswordCreator.backtrack` with explicit fuel, one unit per recursion
level (the Python recursion depth is bounded by the number of variables).
When selection falls through to its sentinel the Python code would next raise
a `KeyError` on `self.domains[99999]`; that path is modelled as a failure. -/
def backtrackFuel (cw : Crossword) (st : Store) :
    Nat → Assign → Option Assign × Assign
  | 0, a => (none, a)
  | f + 1, a =>
      if assignmentComplete cw a then (some a, a)
      else
        match selectUnassignedVariable cw st a with
        | none => (none, a)
        | some var =>
            btList cw (backtrackFuel cw st f) var a
              (orderDomainValues cw st var a)

/-- Number of variables not yet bound by the assignment; bounds the recursion
depth of `backtrack`. -/
def unassignedCount (cw : Crossword) (a : Assign) : Nat :=
  (cw.vars.filter (fun v => ! keyIn v a)).length

/-- `CrosswordCreator.backtrack` as called by the solver, with provably
sufficient fuel. -/
def backtrack (cw : Crossword) (st : Store) (a : Assign) :
    Option Assign × Assign :=
  backtrackFuel cw st (unassignedCount cw a + 1) a

/-- `CrosswordCreator.solve`: node consistency, then `ac3` (whose Boolean the
source discards), then backtracking from the empty assignment. -/
def solve (cw : Crossword) : Option Assign :=
  let st1 := enforceNodeConsistency cw (initialDomains cw)
  let st2 := (ac3 cw st1).2
  (backtrack cw st2 []).1

/-- `CrosswordCreator.solve` instrumented with a flag recording whether the
backtracking search was invoked. The source calls `self.backtrack(dict())`
unconditionally — it ignores the Boolean returned by `self.ac3()` — so the
flag is `true` on every run. -/
def solveTraced (cw : Crossword) : Option Assign × Bool :=
  let st1 := enforceNodeConsistency cw (initialDomains cw)
  let st2 := (ac3 cw st1).2
  ((backtrack cw st2 []).1, true)

/-- Modelled from the spec (section 4.3): the orchestration the spec
describes, in which a failure report from AC-3 short-circuits `solve` so that
backtracking search is never invoked. Kept for comparison with the source's
`solveTraced`. -/
def solveSpecShortCircuit (cw : Crossword) : Option Assign × Bool :=
  let st1 := enforceNodeConsistency cw (initialDomains cw)
  match ac3 cw st1 with
  | (some false, _) => (none, false)
  | (_, st2) => ((backtrack cw st2 []).1, true)

/-- Modelled from the spec (section 4.3): the least-constraining-value score
of a candidate word — the number of neighboring UNASSIGNED variables whose
domain also contains that exact word. -/
def specLcvScore (cw : Crossword) (st : Store) (a : Assign) (var : Variable)
    (value : Word) : Nat :=
  ((neighbors cw var).filter
    (fun nb => ! keyIn nb a && decide (value ∈ st nb))).length

/-- A Python dict never has two bindings with the same key. -/
def NodupKeys (a : Assign) : Prop :=
  a.Pairwise (fun p q => p.1 ≠ q.1)

/-- A total assignment of words to variables satisfies all overlap
constraints of the crossword. -/
def Satisfies (cw : Crossword) (α : Variable → Word) : Prop :=
  ∀ x ∈ cw.vars, ∀ y ∈ cw.vars, ∀ i j, cw.overlaps x y = some (i, j) →
    (α x).getD i ' ' = (α y).getD j ' '

/-- A total assignment draws each variable's word from its current domain. -/
def InDomains (cw : Crossword) (st : Store) (α : Variable → Word) : Prop :=
  ∀ v ∈ cw.vars, α v ∈ st v

/-- Every recorded arc between crossword variables is consistent in `st`:
each word of the source domain has support in the target domain. -/
def AllArcsOK (cw : Crossword) (st : Store) : Prop :=
  ∀ x ∈ cw.vars, ∀ y ∈ cw.vars, ∀ i j, cw.overlaps x y = some (i, j) →
    ∀ w ∈ st x, hasSupport st y i j w = true

/-- The AC-3 loop invariant: every recorded arc is either already consistent
or still scheduled in the queue. -/
def AInv (cw : Crossword) (Q : List (Variable × Variable)) (st : Store) :
    Prop :=
  ∀ x ∈ cw.vars, ∀ y ∈ cw.vars, ∀ i j, cw.overlaps x y = some (i, j) →
    (∀ w ∈ st x, hasSupport st y i j w = true) ∨ (x, y) ∈ Q

/-- Invariant of the first selection loop: after processing the variables in
`U`, the accumulator either still starts with the `[99999, 99999]` placeholder
(every unassigned variable seen so far has at least 99999 candidates; ties at
exactly 99999 trail the placeholder) or it holds exactly the unassigned
variables of minimal domain count `m < 99999` seen so far. -/
def Acc1 (st : Store) (a : Assign) (U : List Variable)
    (mv : List MVEntry) : Prop :=
  (∃ ts, mv = ((none, 99999) : MVEntry) :: ts ∧
    (∀ e ∈ ts, ∃ v, e = ((some v, 99999) : MVEntry) ∧ v ∈ U ∧
      keyIn v a = false ∧ (st v).length = 99999) ∧
    (∀ v ∈ U, keyIn v a = false → 99999 ≤ (st v).length) ∧
    (∀ v ∈ U, keyIn v a = false → (st v).length = 99999 →
      ((some v, 99999) : MVEntry) ∈ ts)) ∨
  (∃ m, m < 99999 ∧ mv ≠ [] ∧ (mv.headD (none, 99999)).2 = m ∧
    (∀ e ∈ mv, ∃ v, e = ((some v, m) : MVEntry) ∧ v ∈ U ∧
      keyIn v a = false ∧ (st v).length = m) ∧
    (∀ v ∈ U, keyIn v a = false → m ≤ (st v).length) ∧
    (∀ v ∈ U, keyIn v a = false → (st v).length = m →
      ((some v, m) : MVEntry) ∈ mv))

/-- State invariant threaded through the search from `solve`'s empty
assignment: keys are unique crossword variables and every bound word comes
from that variable's domain. -/
def GoodA (cw : Crossword) (st : Store) (a : Assign) : Prop :=
  NodupKeys a ∧ ∀ p ∈ a, p.1 ∈ cw.vars ∧ p.2 ∈ st p.1

/-- The domain store after `solve`'s node-consistency pass. -/
def solveStore1 (cw : Crossword) : Store :=
  enforceNodeConsistency cw (initialDomains cw)

/-- The domain store after `solve`'s AC-3 pass, on which `backtrack` runs. -/
def solveStore2 (cw : Crossword) : Store :=
  (ac3 cw (solveStore1 cw)).2

/-- Across slot of length 2 at (0,0): cells (0,0) and (0,1). -/
def XA : Variable := ⟨0, 0, Direction.across, 2⟩

/-- Down slot of length 2 at (0,1): cells (0,1) and (1,1); it crosses `XA`
in cell (0,1), i.e. at index 1 of `XA` and index 0 of `YA`. -/
def YA : Variable := ⟨0, 1, Direction.down, 2⟩

/-- A two-slot crossword with dictionary {"ab", "bc"}; solvable by
XA = "ab", YA = "bc" (they agree on 'b' in the shared cell). -/
def cwA : Crossword :=
  ⟨[XA, YA],
   fun u v =>
     if u = XA ∧ v = YA then some (1, 0)
     else if u = YA ∧ v = XA then some (0, 1) else none,
   [['a', 'b'], ['b', 'c']]⟩

/-- A word store holding the full `cwA` dictionary everywhere. -/
def stA : Store := fun _ => [['a', 'b'], ['b', 'c']]

/-- Across slot of length 2 at (1,0): cells (1,0) and (1,1). -/
def XB : Variable := ⟨1, 0, Direction.across, 2⟩

/-- Down slot of length 2 at (0,0): cells (0,0) and (1,0); it crosses `XB`
in cell (1,0), i.e. at index 0 of `XB` and index 1 of `YB`. -/
def YB : Variable := ⟨0, 0, Direction.down, 2⟩

/-- A two-slot crossword with dictionary {"ab", "cd"}: no word's first letter
matches any word's second letter, so AC-3 empties a domain and reports
failure. -/
def cwB : Crossword :=
  ⟨[XB, YB],
   fun u v =>
     if u = XB ∧ v = YB then some (0, 1)
     else if u = YB ∧ v = XB then some (1, 0) else none,
   [['a', 'b'], ['c', 'd']]⟩

/-- A word store holding the full `cwB` dictionary everywhere. -/
def stB : Store := fun _ => [['a', 'b'], ['c', 'd']]

/-- One isolated slot of length 4 with a dictionary of 2-letter words:
node consistency empties its domain (spec scenario B). -/
def VIso : Variable := ⟨0, 0, Direction.across, 4⟩

/-- The isolated-slot crossword of spec scenario B. -/
def cwIso : Crossword :=
  ⟨[VIso], fun _ _ => none, [['a', 'b'], ['c', 'd']]⟩

/-- Across slot of length 3 at (0,0), crossed by three down slots. -/
def X4 : Variable := ⟨0, 0, Direction.across, 3⟩

/-- Down slot of length 2 at (0,0), crossing `X4` at its index 0. -/
def N1 : Variable := ⟨0, 0, Direction.down, 2⟩

/-- Down slot of length 2 at (0,1), crossing `X4` at its index 1. -/
def N2 : Variable := ⟨0, 1, Direction.down, 2⟩

/-- Down slot of length 2 at (0,2), crossing `X4` at its index 2. -/
def N3 : Variable := ⟨0, 2, Direction.down, 2⟩

/-- "aaa" -/
def wordA3 : Word := ['a', 'a', 'a']

/-- "bbb" -/
def wordB3 : Word := ['b', 'b', 'b']

/-- The crossword exhibiting the least-constraining-value scoring bug: `X4`
has three neighbors `N1`, `N2`, `N3`. -/
def cw4 : Crossword :=
  ⟨[X4, N1, N2, N3],
   fun u v =>
     if u = X4 ∧ v = N1 then some (0, 0)
     else if u = N1 ∧ v = X4 then some (0, 0)
     else if u = X4 ∧ v = N2 then some (1, 0)
     else if u = N2 ∧ v = X4 then some (0, 1)
     else if u = X4 ∧ v = N3 then some (2, 0)
     else if u = N3 ∧ v = X4 then some (0, 2)
     else none,
   [wordA3, wordB3]⟩

/-- Domain state for the LCV bug: "aaa" appears only in the unassigned
neighbor's domain, "bbb" only in the two assigned neighbors' domains. -/
def st4 : Store := fun v =>
  if v = X4 then [wordA3, wordB3]
  else if v = N1 then [wordB3]
  else if v = N2 then [wordA3]
  else if v = N3 then [wordB3]
  else []

/-- Partial assignment binding the two assigned neighbors `N1` and `N3`. -/
def a4 : Assign := [(N1, ['x', 'y']), (N3, ['y', 'z'])]

/-- The slot whose domain holds 100000 words, overflowing the 99999 sentinel
of `select_unassigned_variable`. -/
def V6 : Variable := ⟨0, 0, Direction.across, 5⟩

/-- 100000 distinct one-character words (code points from the private-use
area, so each is a valid character). -/
def bigDomain : List Word :=
  (List.range 100000).map (fun n => [Char.ofNat (57344 + n)])

/-- A one-slot crossword whose dictionary has 100000 words. -/
def cw6 : Crossword := ⟨[V6], fun _ _ => none, bigDomain⟩

/-- The store giving `V6` its 100000-word domain. -/
def st6 : Store := fun _ => bigDomain

/-- Unassigned slot with the smaller domain in the MRV witness crossword. -/
def Q6 : Variable := ⟨1, 0, Direction.across, 2⟩

/-- Unassigned slot with the larger domain in the MRV witness crossword. -/
def P6 : Variable := ⟨0, 0, Direction.across, 2⟩

/-- A small two-slot crossword (no overlaps) for exercising MRV selection. -/
def cwW6 : Crossword :=
  ⟨[P6, Q6], fun _ _ => none, [['a', 'b'], ['c', 'd']]⟩

/-- `P6` keeps two candidates, `Q6` one: MRV must pick `Q6`. -/
def stW6 : Store := fun v =>
  if v = Q6 then [['a', 'b']] else [['a', 'b'], ['c', 'd']]

/-- A slot whose domain is empty: backtracking fails immediately. -/
def VU : Variable := ⟨0, 0, Direction.across, 3⟩

/-- One-slot crossword used to witness the failure branch of `backtrack`. -/
def cwU : Crossword := ⟨[VU], fun _ _ => none, []⟩

/-- The all-empty store for `cwU`. -/
def stU : Store := fun _ => []

/-- The complete, consistent assignment solving `cwA`. -/
def aFullA : Assign := [(XA, ['a', 'b']), (YA, ['b', 'c'])]

/-! ## Theorems -/

theorem keyIn_eq_true_iff {v : Variable} {a : Assign} :
    keyIn v a = true ↔ ∃ w, (v, w) ∈ a := by
  constructor
  · intro h
    rcases List.any_eq_true.mp h with ⟨⟨u, w⟩, hp, he⟩
    simp only [beq_iff_eq] at he
    subst he
    exact ⟨w, hp⟩
  · rintro ⟨w, hw⟩
    exact List.any_eq_true.mpr ⟨(v, w), hw, by simp⟩

theorem keyIn_eq_false_iff {v : Variable} {a : Assign} :
    keyIn v a = false ↔ ∀ p ∈ a, p.1 ≠ v := by
  constructor
  · intro h p hp he
    have : keyIn v a = true := List.any_eq_true.mpr ⟨p, hp, by simp [he]⟩
    simp [this] at h
  · intro h
    rcases hk : keyIn v a with _ | _
    · rfl
    · rcases List.any_eq_true.mp hk with ⟨p, hp, he⟩
      simp only [beq_iff_eq] at he
      exact absurd he (h p hp)

theorem lookupA_eq_some_of_mem {a : Assign} {v : Variable} {w : Word}
    (hnd : NodupKeys a) (hm : (v, w) ∈ a) : lookupA a v = some w := by
  induction a with
  | nil => cases hm
  | cons p rest ih =>
      rcases List.mem_cons.mp hm with h | h
      · subst h
        simp [lookupA, List.find?]
      · have hne : p.1 ≠ v := by
          have := (List.pairwise_cons.mp hnd).1 _ h
          simpa using this
        have : (p.1 == v) = false := by simp [hne]
        simp only [lookupA, List.find?, this]
        exact ih (List.pairwise_cons.mp hnd).2 h

theorem mem_of_lookupA_eq_some {a : Assign} {v : Variable} {w : Word}
    (h : lookupA a v = some w) : (v, w) ∈ a := by
  induction a with
  | nil => simp [lookupA] at h
  | cons p rest ih =>
      rcases hb : (p.1 == v) with _ | _
      · simp only [lookupA, List.find?, hb] at h
        exact List.mem_cons.mpr (Or.inr (ih h))
      · simp only [lookupA, List.find?, hb, Option.map_some'] at h
        have h1 : p.1 = v := by simpa using hb
        have h2 : p.2 = w := Option.some.inj h
        have : p = (v, w) := by
          rcases p with ⟨u, w'⟩
          simp only at h1 h2
          simp [h1, h2]
        exact this ▸ List.mem_cons_self _ _

theorem updateA_of_not_keyIn {a : Assign} {var : Variable} {w : Word}
    (h : keyIn var a = false) : updateA a var w = a ++ [(var, w)] := by
  simp [updateA, h]

theorem popA_eq_self_of_not_keyIn {a : Assign} {var : Variable}
    (h : keyIn var a = false) : popA a var = a := by
  apply List.filter_eq_self.mpr
  intro p hp
  simpa using (keyIn_eq_false_iff.mp h) p hp

theorem keyIn_popA_eq_false (a : Assign) (var : Variable) :
    keyIn var (popA a var) = false := by
  apply keyIn_eq_false_iff.mpr
  intro p hp he
  have := (List.mem_filter.mp hp).2
  simp [he] at this

theorem popA_updateA {a : Assign} {var : Variable} {w : Word}
    (h : keyIn var a = false) : popA (updateA a var w) var = a := by
  rw [updateA_of_not_keyIn h]
  simp only [popA, List.filter_append]
  rw [show (a.filter (fun p => p.1 != var)) = a from
    List.filter_eq_self.mpr (fun p hp => by
      simpa using (keyIn_eq_false_iff.mp h) p hp)]
  simp

theorem nodupKeys_updateA {a : Assign} {var : Variable} {w : Word}
    (hnd : NodupKeys a) (h : keyIn var a = false) :
    NodupKeys (updateA a var w) := by
  rw [updateA_of_not_keyIn h]
  apply List.pairwise_append.mpr
  refine ⟨hnd, List.pairwise_singleton _ _, ?_⟩
  intro p hp q hq
  have hq' : q = (var, w) := by simpa using hq
  subst hq'
  exact (keyIn_eq_false_iff.mp h) p hp

theorem nodupKeys_popA {a : Assign} (hnd : NodupKeys a) (var : Variable) :
    NodupKeys (popA a var) :=
  hnd.sublist (List.filter_sublist a)

theorem mem_updateA_of_not_keyIn {a : Assign} {var : Variable} {w : Word}
    {p : Variable × Word} (h : keyIn var a = false)
    (hp : p ∈ updateA a var w) : p ∈ a ∨ p = (var, w) := by
  rw [updateA_of_not_keyIn h] at hp
  rcases List.mem_append.mp hp with h1 | h1
  · exact Or.inl h1
  · exact Or.inr (by simpa using h1)

theorem mem_popA {a : Assign} {var : Variable} {p : Variable × Word}
    (hp : p ∈ popA a var) : p ∈ a :=
  (List.mem_filter.mp hp).1

theorem mem_neighbors {cw : Crossword} {var v : Variable} :
    v ∈ neighbors cw var ↔
      v ∈ cw.vars ∧ v ≠ var ∧ (cw.overlaps var v).isSome := by
  simp [neighbors, List.mem_filter, and_assoc]

theorem mem_enforceNodeConsistency_subset (cw : Crossword) :
    ∀ (l : List Variable) (st : Store) (v : Variable) (w : Word),
      w ∈ (l.foldl (fun s var => Function.update s var
        ((s var).filter (fun word => var.length == word.length))) st) v →
      w ∈ st v := by
  intro l
  induction l with
  | nil => intro st v w h; exact h
  | cons v' rest ih =>
      intro st v w h
      have h2 := ih _ v w h
      simp only [] at h2
      by_cases hv : v = v'
      · subst hv
        rw [Function.update_same] at h2
        exact (List.mem_filter.mp h2).1
      · rwa [Function.update_noteq hv] at h2

theorem length_of_mem_enforceNodeConsistency (cw : Crossword) :
    ∀ (l : List Variable) (st : Store) (v : Variable), v ∈ l →
      ∀ w ∈ (l.foldl (fun s var => Function.update s var
        ((s var).filter (fun word => var.length == word.length))) st) v,
      v.length = w.length := by
  intro l
  induction l with
  | nil => intro st v hv; cases hv
  | cons v' rest ih =>
      intro st v hv w hw
      by_cases hvr : v ∈ rest
      · exact ih _ v hvr w hw
      · have hv' : v = v' := by
          rcases List.mem_cons.mp hv with h | h
          · exact h
          · exact absurd h hvr
        subst hv'
        have h2 := mem_enforceNodeConsistency_subset cw rest _ v w hw
        simp only [] at h2
        rw [Function.update_same] at h2
        have := (List.mem_filter.mp h2).2
        simpa using this

theorem hasSupport_eq_true_iff {st : Store} {y : Variable} {i j : Nat}
    {w : Word} :
    hasSupport st y i j w = true ↔
      ∃ v ∈ st y, w.getD i ' ' = v.getD j ' ' := by
  simp [hasSupport, List.any_eq_true]

theorem revise_none {cw : Crossword} {st : Store} {x y : Variable}
    (h : cw.overlaps x y = none) : revise cw st x y = (st, false) := by
  simp [revise, h]

theorem revise_fst_self {cw : Crossword} {st : Store} {x y : Variable}
    {i j : Nat} (h : cw.overlaps x y = some (i, j)) :
    (revise cw st x y).1 x = (st x).filter (hasSupport st y i j) := by
  simp [revise, h]

theorem revise_fst_other {cw : Crossword} {st : Store} {x y z : Variable}
    (hz : z ≠ x) : (revise cw st x y).1 z = st z := by
  rcases ho : cw.overlaps x y with _ | ⟨i, j⟩
  · simp [revise, ho]
  · simp [revise, ho, Function.update_noteq hz]

theorem revise_snd_iff {cw : Crossword} {st : Store} {x y : Variable}
    {i j : Nat} (h : cw.overlaps x y = some (i, j)) :
    (revise cw st x y).2 = true ↔
      ∃ w ∈ st x, hasSupport st y i j w = false := by
  simp [revise, h, List.any_eq_true]

theorem revise_subset {cw : Crossword} {st : Store} {x y z : Variable}
    {w : Word} (hw : w ∈ (revise cw st x y).1 z) : w ∈ st z := by
  by_cases hz : z = x
  · rw [hz] at hw ⊢
    rcases ho : cw.overlaps x y with _ | ⟨i, j⟩
    · rw [revise_none ho] at hw
      exact hw
    · rw [revise_fst_self ho] at hw
      exact (List.mem_filter.mp hw).1
  · rwa [revise_fst_other hz] at hw

theorem revise_fst_of_snd_false {cw : Crossword} {st : Store} {x y : Variable}
    (h : (revise cw st x y).2 = false) : (revise cw st x y).1 = st := by
  rcases ho : cw.overlaps x y with _ | ⟨i, j⟩
  · simp [revise, ho]
  · have hall : ∀ w ∈ st x, hasSupport st y i j w = true := by
      intro w hw
      by_contra hc
      have hc' : hasSupport st y i j w = false := by
        rcases hs : hasSupport st y i j w with _ | _
        · rfl
        · exact absurd hs hc
      have : (revise cw st x y).2 = true :=
        (revise_snd_iff ho).mpr ⟨w, hw, hc'⟩
      rw [this] at h; cases h
    have hfix : (st x).filter (hasSupport st y i j) = st x :=
      List.filter_eq_self.mpr hall
    funext z
    by_cases hz : z = x
    · subst hz
      simp [revise, ho, Function.update_same, hfix]
    · simp [revise, ho, Function.update_noteq hz]

theorem mem_foldl_cons_iff (g : Variable → Variable × Variable) :
    ∀ (l : List Variable) (q : List (Variable × Variable))
      (p : Variable × Variable),
      p ∈ l.foldl (fun acc z => g z :: acc) q ↔ p ∈ q ∨ ∃ z ∈ l, p = g z := by
  intro l
  induction l with
  | nil => intro q p; simp
  | cons z zs ih =>
      intro q p
      rw [List.foldl_cons, ih]
      simp only [List.mem_cons]
      aesop

theorem mem_foldl_consIf_iff (var : Variable) :
    ∀ (l : List Variable) (q : List (Variable × Variable))
      (p : Variable × Variable),
      p ∈ l.foldl (fun q' nb => if var ≠ nb then (var, nb) :: q' else q') q ↔
        p ∈ q ∨ ∃ nb ∈ l, var ≠ nb ∧ p = (var, nb) := by
  intro l
  induction l with
  | nil => intro q p; simp
  | cons nb l' ih =>
      intro q p
      rw [List.foldl_cons]
      by_cases hne : var ≠ nb
      · simp only [if_pos hne, ih, List.mem_cons]
        aesop
      · simp only [if_neg hne, ih, List.mem_cons]
        aesop

theorem mem_initialArcs_iff {cw : Crossword} {p : Variable × Variable} :
    p ∈ initialArcs cw ↔ ∃ x ∈ cw.vars, ∃ y ∈ neighbors cw x, x ≠ y ∧
      p = (x, y) := by
  have main : ∀ (l : List Variable) (q : List (Variable × Variable)),
      p ∈ l.foldl (fun q var => (neighbors cw var).foldl
        (fun q' nb => if var ≠ nb then (var, nb) :: q' else q') q) q ↔
      p ∈ q ∨ ∃ x ∈ l, ∃ y ∈ neighbors cw x, x ≠ y ∧ p = (x, y) := by
    intro l
    induction l with
    | nil => intro q; simp
    | cons x l' ih =>
        intro q
        rw [List.foldl_cons, ih, mem_foldl_consIf_iff]
        simp only [List.mem_cons]
        aesop
  rw [initialArcs, main]
  simp

theorem initialArcs_vars {cw : Crossword} {p : Variable × Variable}
    (hp : p ∈ initialArcs cw) : p.1 ∈ cw.vars ∧ p.2 ∈ cw.vars := by
  rcases mem_initialArcs_iff.mp hp with ⟨x, hx, y, hy, _, hpe⟩
  subst hpe
  exact ⟨hx, (mem_neighbors.mp hy).1⟩

theorem ac3Fuel_subset (cw : Crossword) :
    ∀ (f : Nat) (Q : List (Variable × Variable)) (st : Store) (v : Variable)
      (w : Word), w ∈ (ac3Fuel cw f Q st).2 v → w ∈ st v := by
  intro f
  induction f with
  | zero => intro Q st v w h; exact h
  | succ f ih =>
      intro Q st v w h
      match Q with
      | [] => exact h
      | (x, y) :: rest =>
          simp only [ac3Fuel] at h
          by_cases h2 : (revise cw st x y).2 = true
          · simp only [h2, if_true] at h
            by_cases h3 : ((revise cw st x y).1 x).isEmpty = true
            · simp only [h3, if_true] at h
              exact revise_subset h
            · simp only [h3, if_false] at h
              exact revise_subset (ih _ _ v w h)
          · simp only [Bool.not_eq_true] at h2
            simp only [h2, Bool.false_eq_true, if_false] at h
            exact revise_subset (ih _ _ v w h)

theorem ac3_subset {cw : Crossword} {st : Store} {v : Variable} {w : Word}
    (h : w ∈ (ac3 cw st).2 v) : w ∈ st v :=
  ac3Fuel_subset cw _ _ _ v w h

theorem revise_preserves_solution {cw : Crossword} {st : Store}
    {x y : Variable} {α : Variable → Word} (hx : x ∈ cw.vars)
    (hy : y ∈ cw.vars) (hd : InDomains cw st α) (hs : Satisfies cw α) :
    InDomains cw (revise cw st x y).1 α := by
  intro v hv
  by_cases hvx : v = x
  · rw [hvx]
    rcases ho : cw.overlaps x y with _ | ⟨i, j⟩
    · rw [revise_none ho]
      exact hd x hx
    · rw [revise_fst_self ho]
      refine List.mem_filter.mpr ⟨hd x hx, ?_⟩
      exact hasSupport_eq_true_iff.mpr ⟨α y, hd y hy, hs x hx y hy i j ho⟩
  · rw [revise_fst_other hvx]
    exact hd v hv

theorem ac3Fuel_sound (cw : Crossword) {α : Variable → Word}
    (hs : Satisfies cw α) :
    ∀ (f : Nat) (Q : List (Variable × Variable)) (st : Store),
      (∀ p ∈ Q, p.1 ∈ cw.vars ∧ p.2 ∈ cw.vars) → InDomains cw st α →
      (ac3Fuel cw f Q st).1 ≠ some false := by
  intro f
  induction f with
  | zero => intro Q st _ _ h; simp [ac3Fuel] at h
  | succ f ih =>
      intro Q st hQ hd
      match Q with
      | [] => simp [ac3Fuel]
      | (x, y) :: rest =>
          have hx : x ∈ cw.vars := (hQ (x, y) (List.mem_cons_self _ _)).1
          have hy : y ∈ cw.vars := (hQ (x, y) (List.mem_cons_self _ _)).2
          have hd' : InDomains cw (revise cw st x y).1 α :=
            revise_preserves_solution hx hy hd hs
          simp only [ac3Fuel]
          by_cases h2 : (revise cw st x y).2 = true
          · simp only [h2, if_true]
            by_cases h3 : ((revise cw st x y).1 x).isEmpty = true
            · exfalso
              have hmem := hd' x hx
              rw [List.isEmpty_iff.mp h3] at hmem
              cases hmem
            · simp only [h3, if_false]
              apply ih
              · intro p hp
                rcases (mem_foldl_cons_iff (fun z => (z, x)) _ _ _).mp hp with
                  h4 | ⟨z, h4, h5⟩
                · exact hQ p (List.mem_cons_of_mem _ h4)
                · have hz := List.mem_filter.mp h4
                  rw [h5]
                  exact ⟨(mem_neighbors.mp hz.1).1, hx⟩
              · exact hd'
          · simp only [Bool.not_eq_true] at h2
            simp only [h2, Bool.false_eq_true, if_false]
            apply ih
            · intro p hp
              exact hQ p (List.mem_cons_of_mem _ hp)
            · exact hd'

theorem mem_insertByScore {p q : Word × Nat} :
    ∀ {l : List (Word × Nat)}, q ∈ insertByScore p l ↔ q = p ∨ q ∈ l := by
  intro l
  induction l with
  | nil => simp [insertByScore]
  | cons r rs ih =>
      by_cases h : r.2 ≤ p.2
      · simp only [insertByScore, if_pos h, List.mem_cons, ih]
        tauto
      · simp only [insertByScore, if_neg h, List.mem_cons]

theorem mem_sortByScore {q : Word × Nat} :
    ∀ {l : List (Word × Nat)}, q ∈ sortByScore l ↔ q ∈ l := by
  intro l
  induction l with
  | nil => simp [sortByScore]
  | cons r rs ih =>
      simp only [sortByScore, mem_insertByScore, List.mem_cons, ih]

theorem mem_orderDomainValues {cw : Crossword} {st : Store} {var : Variable}
    {a : Assign} {w : Word} (h : w ∈ orderDomainValues cw st var a) :
    w ∈ st var := by
  simp only [orderDomainValues, List.mem_map] at h
  rcases h with ⟨p, hp, hpe⟩
  rcases List.mem_map.mp (mem_sortByScore.mp hp) with ⟨v, hv, hve⟩
  rw [← hpe, ← hve]
  exact hv

theorem wf_irrefl {cw : Crossword} (hwf : cw.WF) {x : Variable}
    (hx : x ∈ cw.vars) : cw.overlaps x x = none :=
  (hwf x hx x hx).1

theorem wf_symm {cw : Crossword} (hwf : cw.WF) {x y : Variable}
    (hx : x ∈ cw.vars) (hy : y ∈ cw.vars) {i j : Nat}
    (h : cw.overlaps x y = some (i, j)) : cw.overlaps y x = some (j, i) := by
  have := (hwf x hx y hy).2
  rw [this, h]
  rfl

theorem ne_of_overlap_some {cw : Crossword} (hwf : cw.WF) {x y : Variable}
    (hx : x ∈ cw.vars) {i j : Nat} (h : cw.overlaps x y = some (i, j)) :
    x ≠ y := by
  intro he
  rw [← he] at h
  rw [wf_irrefl hwf hx] at h
  cases h

theorem ac3Fuel_true_allArcsOK {cw : Crossword} (hwf : cw.WF) :
    ∀ (f : Nat) (Q : List (Variable × Variable)) (st st₂ : Store),
      (∀ p ∈ Q, p.1 ∈ cw.vars ∧ p.2 ∈ cw.vars) → AInv cw Q st →
      ac3Fuel cw f Q st = (some true, st₂) → AllArcsOK cw st₂ := by
  intro f
  induction f with
  | zero =>
      intro Q st st₂ _ _ h
      simp [ac3Fuel] at h
  | succ f ih =>
      intro Q st st₂ hQ hinv h
      match Q with
      | [] =>
          simp only [ac3Fuel, Prod.mk.injEq] at h
          rw [← h.2]
          intro x hx y hy i j hov w hw
          rcases hinv x hx y hy i j hov with h1 | h1
          · exact h1 w hw
          · cases h1
      | (x, y) :: rest =>
          have hx : x ∈ cw.vars := (hQ (x, y) (List.mem_cons_self _ _)).1
          have hy : y ∈ cw.vars := (hQ (x, y) (List.mem_cons_self _ _)).2
          simp only [ac3Fuel] at h
          by_cases h2 : (revise cw st x y).2 = true
          · simp only [h2, if_true] at h
            by_cases h3 : ((revise cw st x y).1 x).isEmpty = true
            · simp only [h3, if_true, Prod.mk.injEq] at h
              cases h.1
            · simp only [h3, if_false] at h
              -- a revision happened, so the popped arc has a recorded overlap
              rcases ho : cw.overlaps x y with _ | ⟨i0, j0⟩
              · rw [revise_none ho] at h2
                cases h2
              have hxy : x ≠ y := ne_of_overlap_some hwf hx ho
              refine ih _ _ _ ?_ ?_ h
              · intro p hp
                rcases (mem_foldl_cons_iff (fun z => (z, x)) _ _ _).mp hp with
                  h4 | ⟨z, h4, h5⟩
                · exact hQ p (List.mem_cons_of_mem _ h4)
                · rw [h5]
                  exact ⟨(mem_neighbors.mp (List.mem_filter.mp h4).1).1, hx⟩
              · -- re-establish the invariant for the revised store
                intro a ha b hb p q hov
                have hst'x : (revise cw st x y).1 x =
                    (st x).filter (hasSupport st y i0 j0) :=
                  revise_fst_self ho
                have hst'o : ∀ z, z ≠ x → (revise cw st x y).1 z = st z :=
                  fun z hz => revise_fst_other hz
                rcases hinv a ha b hb p q hov with hOK | hQmem
                · -- the arc was consistent before the revision
                  by_cases hbx : b = x
                  · by_cases hay : a = y
                    · -- arc (a, b) = (y, x): stays consistent by symmetry
                      left
                      have hov2 : cw.overlaps y x = some (p, q) := by
                        rw [← hay, ← hbx]
                        exact hov
                      have hov3 := wf_symm hwf hx hy ho
                      rw [hov2] at hov3
                      have hp1 : p = j0 :=
                        congrArg Prod.fst (Option.some.inj hov3)
                      have hq1 : q = i0 :=
                        congrArg Prod.snd (Option.some.inj hov3)
                      intro w hw
                      have hwa : w ∈ st a := by
                        have hane : a ≠ x := by
                          rw [hay]
                          exact Ne.symm hxy
                        rw [hst'o a hane] at hw
                        exact hw
                      have hOKw := hOK w hwa
                      have hwy : w ∈ st y := by
                        rw [← hay]
                        exact hwa
                      rcases hasSupport_eq_true_iff.mp hOKw with ⟨v, hv, hagree⟩
                      have hvx : v ∈ st x := by
                        rw [← hbx]
                        exact hv
                      apply hasSupport_eq_true_iff.mpr
                      refine ⟨v, ?_, hagree⟩
                      have hbsb : (revise cw st x y).1 b =
                          (st x).filter (hasSupport st y i0 j0) := by
                        rw [hbx]
                        exact hst'x
                      rw [hbsb]
                      refine List.mem_filter.mpr ⟨hvx, ?_⟩
                      apply hasSupport_eq_true_iff.mpr
                      refine ⟨w, hwy, ?_⟩
                      rw [hp1, hq1] at hagree
                      exact hagree.symm
                    · -- arc (a, x) with a ≠ y: re-enqueued
                      right
                      apply (mem_foldl_cons_iff (fun z => (z, x)) _ _ _).mpr
                      refine Or.inr ⟨a, ?_, by rw [hbx]⟩
                      have hov4 : cw.overlaps a x = some (p, q) := by
                        rw [← hbx]
                        exact hov
                      have hax : a ≠ x := ne_of_overlap_some hwf ha hov4
                      refine List.mem_filter.mpr ⟨?_, by simp [hay]⟩
                      exact mem_neighbors.mpr ⟨ha, hax,
                        by rw [wf_symm hwf ha hx hov4]; rfl⟩
                  · -- target domain untouched, source only shrank
                    left
                    intro w hw
                    have hw' : w ∈ st a := by
                      by_cases hax : a = x
                      · have hsa : (revise cw st x y).1 a =
                            (st x).filter (hasSupport st y i0 j0) := by
                          rw [hax]
                          exact hst'x
                        rw [hsa] at hw
                        have := (List.mem_filter.mp hw).1
                        rw [hax]
                        exact this
                      · rw [hst'o a hax] at hw
                        exact hw
                    have := hOK w hw'
                    rcases hasSupport_eq_true_iff.mp this with ⟨v, hv, hagree⟩
                    apply hasSupport_eq_true_iff.mpr
                    refine ⟨v, ?_, hagree⟩
                    rw [hst'o b hbx]
                    exact hv
                · -- the arc was scheduled
                  rcases List.mem_cons.mp hQmem with hpop | hrest
                  · -- it is the popped arc: the revision made it consistent
                    left
                    have ha1 : a = x := congrArg Prod.fst hpop
                    have hb1 : b = y := congrArg Prod.snd hpop
                    have hov5 : cw.overlaps x y = some (p, q) := by
                      rw [← ha1, ← hb1]
                      exact hov
                    rw [ho] at hov5
                    have hp1 : p = i0 :=
                      (congrArg Prod.fst (Option.some.inj hov5)).symm
                    have hq1 : q = j0 :=
                      (congrArg Prod.snd (Option.some.inj hov5)).symm
                    intro w hw
                    have hwx : w ∈ (st x).filter (hasSupport st y i0 j0) := by
                      have hsa : (revise cw st x y).1 a =
                          (st x).filter (hasSupport st y i0 j0) := by
                        rw [ha1]
                        exact hst'x
                      rw [hsa] at hw
                      exact hw
                    have hkeep := (List.mem_filter.mp hwx).2
                    rcases hasSupport_eq_true_iff.mp hkeep with ⟨v, hv, hagree⟩
                    apply hasSupport_eq_true_iff.mpr
                    refine ⟨v, ?_, ?_⟩
                    · have hsb : (revise cw st x y).1 b = st y := by
                        rw [hb1]
                        exact hst'o y (Ne.symm hxy)
                      rw [hsb]
                      exact hv
                    · rw [hp1, hq1]
                      exact hagree
                  · right
                    apply (mem_foldl_cons_iff (fun z => (z, x)) _ _ _).mpr
                    exact Or.inl hrest
          · -- no revision: the store is unchanged and the popped arc is OK
            simp only [Bool.not_eq_true] at h2
            simp only [h2, Bool.false_eq_true, if_false] at h
            have hst : (revise cw st x y).1 = st := revise_fst_of_snd_false h2
            rw [hst] at h
            refine ih _ _ _ ?_ ?_ h
            · intro p hp
              exact hQ p (List.mem_cons_of_mem _ hp)
            · intro a ha b hb p q hov
              rcases hinv a ha b hb p q hov with hOK | hQmem
              · exact Or.inl hOK
              · rcases List.mem_cons.mp hQmem with hpop | hrest
                · left
                  have ha1 : a = x := congrArg Prod.fst hpop
                  have hb1 : b = y := congrArg Prod.snd hpop
                  have hov6 : cw.overlaps x y = some (p, q) := by
                    rw [← ha1, ← hb1]
                    exact hov
                  intro w hw
                  rw [ha1] at hw
                  rw [hb1]
                  by_contra hc
                  have hc' : hasSupport st y p q w = false := by
                    rcases hs : hasSupport st y p q w with _ | _
                    · rfl
                    · exact absurd hs hc
                  have : (revise cw st x y).2 = true :=
                    (revise_snd_iff hov6).mpr ⟨w, hw, hc'⟩
                  rw [h2] at this
                  cases this
                · exact Or.inr hrest

theorem revise_of_arcOK {cw : Crossword} {st : Store} {x y : Variable}
    {i j : Nat} (ho : cw.overlaps x y = some (i, j))
    (hOK : ∀ w ∈ st x, hasSupport st y i j w = true) :
    revise cw st x y = (st, false) := by
  have hsnd : (revise cw st x y).2 = false := by
    simp only [revise, ho]
    apply List.any_eq_false.mpr
    intro w hw
    rw [hOK w hw]
    simp
  have hfst : (revise cw st x y).1 = st := revise_fst_of_snd_false hsnd
  have hpair : revise cw st x y =
      ((revise cw st x y).1, (revise cw st x y).2) := rfl
  rw [hpair, hfst, hsnd]

theorem ac3Fuel_noop (cw : Crossword) :
    ∀ (Q : List (Variable × Variable)) (st : Store) (f : Nat),
      (∀ x y : Variable, (x, y) ∈ Q → revise cw st x y = (st, false)) →
      Q.length < f → ac3Fuel cw f Q st = (some true, st) := by
  intro Q
  induction Q with
  | nil =>
      intro st f _ hf
      match f, hf with
      | f' + 1, _ => rfl
  | cons p rest ih =>
      intro st f hno hf
      match f, hf with
      | f' + 1, hf =>
          rcases p with ⟨x, y⟩
          have hrev := hno x y (List.mem_cons_self _ _)
          simp only [ac3Fuel, hrev]
          apply ih
          · intro a b hab
            exact hno a b (List.mem_cons_of_mem _ hab)
          · simpa [Nat.succ_lt_succ_iff] using hf

theorem domainCount_eq_length (l : List Word) : domainCount l = l.length := by
  have h : ∀ (l : List Word) (n : Nat),
      l.foldl (fun c _ => c + 1) n = n + l.length := by
    intro l
    induction l with
    | nil => intro n; simp
    | cons x xs ih =>
        intro n
        simp only [List.foldl_cons, ih, List.length_cons]
        omega
  simpa using h l 0

theorem Acc1_init (st : Store) (a : Assign) :
    Acc1 st a [] [((none, 99999) : MVEntry)] := by
  left
  exact ⟨[], rfl, by simp, by simp, by simp⟩

theorem Acc1_extend_assigned {st : Store} {a : Assign} {U : List Variable}
    {mv : List MVEntry} {v : Variable} (hacc : Acc1 st a U mv)
    (hkv : keyIn v a = true) : Acc1 st a (U ++ [v]) mv := by
  have hne : ∀ u : Variable, u ∈ U ++ [v] → keyIn u a = false → u ∈ U := by
    intro u hu hfu
    rcases List.mem_append.mp hu with h | h
    · exact h
    · have : u = v := by simpa using h
      rw [this, hkv] at hfu
      cases hfu
  rcases hacc with ⟨ts, hmv, hts, hmin, htied⟩ | ⟨m, hm, hne0, hhead, hent, hmin, htied⟩
  · left
    refine ⟨ts, hmv, ?_, ?_, ?_⟩
    · intro e he
      rcases hts e he with ⟨u, h1, h2, h3, h4⟩
      exact ⟨u, h1, List.mem_append.mpr (Or.inl h2), h3, h4⟩
    · intro u hu hfu
      exact hmin u (hne u hu hfu) hfu
    · intro u hu hfu hlen
      exact htied u (hne u hu hfu) hfu hlen
  · right
    refine ⟨m, hm, hne0, hhead, ?_, ?_, ?_⟩
    · intro e he
      rcases hent e he with ⟨u, h1, h2, h3, h4⟩
      exact ⟨u, h1, List.mem_append.mpr (Or.inl h2), h3, h4⟩
    · intro u hu hfu
      exact hmin u (hne u hu hfu) hfu
    · intro u hu hfu hlen
      exact htied u (hne u hu hfu) hfu hlen

theorem suvLoop1_cons (st : Store) (a : Assign) (mv : List MVEntry)
    (v : Variable) (rest : List Variable) :
    suvLoop1 st a mv (v :: rest) =
      if keyIn v a then suvLoop1 st a mv rest
      else
        if domainCount (st v) < (mv.headD ((none, 99999) : MVEntry)).2 then
          suvLoop1 st a [((some v, domainCount (st v)) : MVEntry)] rest
        else if domainCount (st v) =
            (mv.headD ((none, 99999) : MVEntry)).2 then
          suvLoop1 st a (mv ++ [((some v, domainCount (st v)) : MVEntry)]) rest
        else suvLoop1 st a mv rest := rfl

theorem suvLoop1_acc (st : Store) (a : Assign) :
    ∀ (l U : List Variable) (mv : List MVEntry),
      Acc1 st a U mv → Acc1 st a (U ++ l) (suvLoop1 st a mv l) := by
  intro l
  induction l with
  | nil =>
      intro U mv h
      simpa [suvLoop1] using h
  | cons v rest ih =>
      intro U mv hacc
      have hUv : U ++ v :: rest = (U ++ [v]) ++ rest := by simp
      rw [hUv]
      by_cases hkv : keyIn v a = true
      · rw [suvLoop1_cons, if_pos hkv]
        exact ih _ _ (Acc1_extend_assigned hacc hkv)
      · have hkv' : keyIn v a = false := by simpa using hkv
        have hmemv : v ∈ U ++ [v] := List.mem_append.mpr (Or.inr (by simp))
        have hUmono : ∀ u : Variable, u ∈ U → u ∈ U ++ [v] := by
          intro u hu
          exact List.mem_append.mpr (Or.inl hu)
        have hUcases : ∀ u : Variable, u ∈ U ++ [v] → u ∈ U ∨ u = v := by
          intro u hu
          rcases List.mem_append.mp hu with h | h
          · exact Or.inl h
          · exact Or.inr (by simpa using h)
        have hclen : domainCount (st v) = (st v).length :=
          domainCount_eq_length _
        by_cases hlt : domainCount (st v) <
            (mv.headD ((none, 99999) : MVEntry)).2
        · rw [suvLoop1_cons, if_neg hkv, if_pos hlt]
          apply ih
          rcases hacc with ⟨ts, hmv, _, hmin, _⟩ |
            ⟨m, hm, _, hhead, _, hmin, _⟩
          · -- placeholder state: the head count is 99999
            have hm99 : (mv.headD ((none, 99999) : MVEntry)).2 = 99999 := by
              rw [hmv]
              rfl
            rw [hm99] at hlt
            right
            refine ⟨domainCount (st v), by omega, by simp, by simp, ?_, ?_, ?_⟩
            · intro e he
              have he' : e = ((some v, domainCount (st v)) : MVEntry) := by
                simpa using he
              exact ⟨v, he', hmemv, hkv', hclen.symm⟩
            · intro u hu hfu
              rcases hUcases u hu with h | h
              · have := hmin u h hfu
                omega
              · rw [h, ← hclen]
            · intro u hu hfu hlen
              rcases hUcases u hu with h | h
              · have := hmin u h hfu
                omega
              · rw [h]
                simp [← hclen, hlen, h]
          · -- real state: the head count is the running minimum m
            rw [hhead] at hlt
            right
            refine ⟨domainCount (st v), by omega, by simp, by simp, ?_, ?_, ?_⟩
            · intro e he
              have he' : e = ((some v, domainCount (st v)) : MVEntry) := by
                simpa using he
              exact ⟨v, he', hmemv, hkv', hclen.symm⟩
            · intro u hu hfu
              rcases hUcases u hu with h | h
              · have := hmin u h hfu
                omega
              · rw [h, ← hclen]
            · intro u hu hfu hlen
              rcases hUcases u hu with h | h
              · have := hmin u h hfu
                omega
              · rw [h]
                simp [← hclen, hlen, h]
        · by_cases heq : domainCount (st v) =
              (mv.headD ((none, 99999) : MVEntry)).2
          · rw [suvLoop1_cons, if_neg hkv, if_neg hlt, if_pos heq]
            apply ih
            rcases hacc with ⟨ts, hmv, hts, hmin, htied⟩ |
              ⟨m, hm, hne0, hhead, hent, hmin, htied⟩
            · -- placeholder state: v ties at exactly 99999
              have hm99 : (mv.headD ((none, 99999) : MVEntry)).2 = 99999 := by
                rw [hmv]
                rfl
              have hc99 : domainCount (st v) = 99999 := by rw [heq, hm99]
              left
              refine ⟨ts ++ [((some v, domainCount (st v)) : MVEntry)],
                by rw [hmv]; simp, ?_, ?_, ?_⟩
              · intro e he
                rcases List.mem_append.mp he with h | h
                · rcases hts e h with ⟨u, h1, h2, h3, h4⟩
                  exact ⟨u, h1, hUmono u h2, h3, h4⟩
                · have he' : e = ((some v, domainCount (st v)) : MVEntry) := by
                    simpa using h
                  refine ⟨v, by rw [he', hc99], hmemv, hkv', ?_⟩
                  rw [← hclen, hc99]
              · intro u hu hfu
                rcases hUcases u hu with h | h
                · exact hmin u h hfu
                · rw [h, ← hclen, hc99]
              · intro u hu hfu hlen
                rcases hUcases u hu with h | h
                · exact List.mem_append.mpr (Or.inl (htied u h hfu hlen))
                · apply List.mem_append.mpr
                  right
                  rw [h]
                  simp [hc99]
            · -- real state: v ties at the running minimum m
              have hcm : domainCount (st v) = m := by rw [heq, hhead]
              right
              have hheadapp : ((mv ++
                  [((some v, domainCount (st v)) : MVEntry)]).headD
                  ((none, 99999) : MVEntry)).2 = m := by
                rcases mv with _ | ⟨e0, tl⟩
                · cases hne0 rfl
                · simpa using hhead
              refine ⟨m, hm, by simp, hheadapp, ?_, ?_, ?_⟩
              · intro e he
                rcases List.mem_append.mp he with h | h
                · rcases hent e h with ⟨u, h1, h2, h3, h4⟩
                  exact ⟨u, h1, hUmono u h2, h3, h4⟩
                · have he' : e = ((some v, domainCount (st v)) : MVEntry) := by
                    simpa using h
                  refine ⟨v, by rw [he', hcm], hmemv, hkv', ?_⟩
                  rw [← hclen, hcm]
              · intro u hu hfu
                rcases hUcases u hu with h | h
                · exact hmin u h hfu
                · rw [h, ← hclen, hcm]
              · intro u hu hfu hlen
                rcases hUcases u hu with h | h
                · exact List.mem_append.mpr (Or.inl (htied u h hfu hlen))
                · apply List.mem_append.mpr
                  right
                  rw [h]
                  simp [hcm]
          · -- the count exceeds the minimum: the accumulator is unchanged
            rw [suvLoop1_cons, if_neg hkv, if_neg hlt, if_neg heq]
            apply ih
            rcases hacc with ⟨ts, hmv, hts, hmin, htied⟩ |
              ⟨m, hm, hne0, hhead, hent, hmin, htied⟩
            · have hm99 : (mv.headD ((none, 99999) : MVEntry)).2 = 99999 := by
                rw [hmv]
                rfl
              rw [hm99] at hlt heq
              left
              refine ⟨ts, hmv, ?_, ?_, ?_⟩
              · intro e he
                rcases hts e he with ⟨u, h1, h2, h3, h4⟩
                exact ⟨u, h1, hUmono u h2, h3, h4⟩
              · intro u hu hfu
                rcases hUcases u hu with h | h
                · exact hmin u h hfu
                · rw [h, ← hclen]
                  omega
              · intro u hu hfu hlen
                rcases hUcases u hu with h | h
                · exact htied u h hfu hlen
                · rw [h, ← hclen] at hlen
                  omega
            · rw [hhead] at hlt heq
              right
              refine ⟨m, hm, hne0, hhead, ?_, ?_, ?_⟩
              · intro e he
                rcases hent e he with ⟨u, h1, h2, h3, h4⟩
                exact ⟨u, h1, hUmono u h2, h3, h4⟩
              · intro u hu hfu
                rcases hUcases u hu with h | h
                · exact hmin u h hfu
                · rw [h, ← hclen]
                  omega
              · intro u hu hfu hlen
                rcases hUcases u hu with h | h
                · exact htied u h hfu hlen
                · rw [h, ← hclen] at hlen
                  omega

theorem suvLoop2_cons (cw : Crossword) (best e : MVEntry)
    (rest : List MVEntry) :
    suvLoop2 cw best (e :: rest) =
      if degreeO cw e.1 > best.2 then
        suvLoop2 cw (e.1, degreeO cw e.1) rest
      else suvLoop2 cw best rest := rfl

theorem suvLoop2_src (cw : Crossword) :
    ∀ (L : List MVEntry) (best : MVEntry),
      suvLoop2 cw best L = best ∨
      ∃ e ∈ L, suvLoop2 cw best L = (e.1, degreeO cw e.1) := by
  intro L
  induction L with
  | nil => intro best; exact Or.inl rfl
  | cons e rest ih =>
      intro best
      rw [suvLoop2_cons]
      by_cases hgt : degreeO cw e.1 > best.2
      · rw [if_pos hgt]
        rcases ih (e.1, degreeO cw e.1) with h | ⟨e', he', h⟩
        · exact Or.inr ⟨e, List.mem_cons_self _ _, h⟩
        · exact Or.inr ⟨e', List.mem_cons_of_mem _ he', h⟩
      · rw [if_neg hgt]
        rcases ih best with h | ⟨e', he', h⟩
        · exact Or.inl h
        · exact Or.inr ⟨e', List.mem_cons_of_mem _ he', h⟩

theorem suvLoop2_mono (cw : Crossword) :
    ∀ (L : List MVEntry) (best : MVEntry),
      best.2 ≤ (suvLoop2 cw best L).2 := by
  intro L
  induction L with
  | nil => intro best; exact Nat.le_refl _
  | cons e rest ih =>
      intro best
      rw [suvLoop2_cons]
      by_cases hgt : degreeO cw e.1 > best.2
      · rw [if_pos hgt]
        exact Nat.le_trans (Nat.le_of_lt hgt) (ih (e.1, degreeO cw e.1))
      · rw [if_neg hgt]
        exact ih best

theorem suvLoop2_max (cw : Crossword) :
    ∀ (L : List MVEntry) (best e : MVEntry), e ∈ L →
      degreeO cw e.1 ≤ (suvLoop2 cw best L).2 := by
  intro L
  induction L with
  | nil => intro best e he; cases he
  | cons e' rest ih =>
      intro best e he
      rw [suvLoop2_cons]
      rcases List.mem_cons.mp he with h | h
      · by_cases hgt : degreeO cw e'.1 > best.2
        · rw [if_pos hgt, h]
          exact suvLoop2_mono cw rest (e'.1, degreeO cw e'.1)
        · rw [if_neg hgt, h]
          exact Nat.le_trans (Nat.le_of_not_lt hgt) (suvLoop2_mono cw rest best)
      · by_cases hgt : degreeO cw e'.1 > best.2
        · rw [if_pos hgt]
          exact ih _ e h
        · rw [if_neg hgt]
          exact ih _ e h

theorem selectUnassignedVariable_eq (cw : Crossword) (st : Store)
    (a : Assign) :
    selectUnassignedVariable cw st a =
      if 1 < (suvLoop1 st a [((none, 99999) : MVEntry)] cw.vars).length then
        (suvLoop2 cw
          (((suvLoop1 st a [((none, 99999) : MVEntry)] cw.vars).headD
            ((none, 99999) : MVEntry)).1, 0)
          ((((suvLoop1 st a [((none, 99999) : MVEntry)] cw.vars).headD
            ((none, 99999) : MVEntry)).1, 0) ::
            (suvLoop1 st a [((none, 99999) : MVEntry)] cw.vars).tail)).1
      else ((suvLoop1 st a [((none, 99999) : MVEntry)] cw.vars).headD
        ((none, 99999) : MVEntry)).1 := rfl

theorem select_acc (cw : Crossword) (st : Store) (a : Assign) :
    Acc1 st a cw.vars (suvLoop1 st a [((none, 99999) : MVEntry)] cw.vars) := by
  have h := suvLoop1_acc st a cw.vars [] [((none, 99999) : MVEntry)]
    (Acc1_init st a)
  rwa [List.nil_append] at h

theorem select_eq_some {cw : Crossword} {st : Store} {a : Assign}
    {v : Variable} (h : selectUnassignedVariable cw st a = some v) :
    v ∈ cw.vars ∧ keyIn v a = false := by
  have hacc := select_acc cw st a
  rw [selectUnassignedVariable_eq] at h
  generalize hMV : suvLoop1 st a [((none, 99999) : MVEntry)] cw.vars = MV
    at hacc h
  by_cases hlen : 1 < MV.length
  · rw [if_pos hlen] at h
    have hgood : ∀ e ∈ (((MV.headD ((none, 99999) : MVEntry)).1, 0) :
        MVEntry) :: MV.tail, ∀ u : Variable, e.1 = some u →
        u ∈ cw.vars ∧ keyIn u a = false := by
      intro e he u heu
      rcases hacc with ⟨ts, hmv, hts, _, _⟩ |
        ⟨m, _, hne, _, hent, _, _⟩
      · rcases List.mem_cons.mp he with h1 | h1
        · rw [h1] at heu
          rw [hmv] at heu
          simp at heu
        · rw [hmv] at h1
          rcases hts e (by simpa using h1) with ⟨u', he', hu', hku', _⟩
          rw [he'] at heu
          simp only at heu
          cases Option.some.inj heu
          exact ⟨hu', hku'⟩
      · rcases List.mem_cons.mp he with h1 | h1
        · -- the zeroed head entry carries the same variable as the head
          rcases MV with _ | ⟨e0, tl⟩
          · cases hne rfl
          · rcases hent e0 (List.mem_cons_self _ _) with ⟨u', he', hu', hku', _⟩
            rw [h1] at heu
            rw [List.headD_cons, he'] at heu
            simp only at heu
            cases Option.some.inj heu
            exact ⟨hu', hku'⟩
        · have hmem : e ∈ MV := List.mem_of_mem_tail h1
          rcases hent e hmem with ⟨u', he', hu', hku', _⟩
          rw [he'] at heu
          simp only at heu
          cases Option.some.inj heu
          exact ⟨hu', hku'⟩
    rcases suvLoop2_src cw (((MV.headD ((none, 99999) : MVEntry)).1, 0) ::
        MV.tail) ((MV.headD ((none, 99999) : MVEntry)).1, 0) with h1 |
        ⟨e, he, h1⟩
    · rw [h1] at h
      exact hgood _ (List.mem_cons_self _ _) v h
    · rw [h1] at h
      exact hgood e he v h
  · rw [if_neg hlen] at h
    rcases hacc with ⟨ts, hmv, _, _, _⟩ | ⟨m, _, hne, _, hent, _, _⟩
    · rw [hmv] at h
      simp at h
    · rcases MV with _ | ⟨e0, tl⟩
      · cases hne rfl
      · rcases hent e0 (List.mem_cons_self _ _) with ⟨u', he', hu', hku', _⟩
        rw [List.headD_cons, he'] at h
        simp only at h
        cases Option.some.inj h
        exact ⟨hu', hku'⟩

theorem suvLoop1_all_assigned (st : Store) (a : Assign) :
    ∀ (l : List Variable) (mv : List MVEntry),
      (∀ v ∈ l, keyIn v a = true) → suvLoop1 st a mv l = mv := by
  intro l
  induction l with
  | nil => intro mv _; rfl
  | cons v rest ih =>
      intro mv hall
      rw [suvLoop1_cons, if_pos (hall v (List.mem_cons_self _ _))]
      exact ih mv (fun u hu => hall u (List.mem_cons_of_mem _ hu))

theorem select_of_complete {cw : Crossword} {st : Store} {a : Assign}
    (h : assignmentComplete cw a = true) :
    selectUnassignedVariable cw st a = none := by
  have hall : ∀ v ∈ cw.vars, keyIn v a = true := by
    intro v hv
    have := List.all_eq_true.mp h v hv
    simpa using this
  rw [selectUnassignedVariable_eq, suvLoop1_all_assigned st a cw.vars _ hall]
  rfl

theorem select_spec_strong (cw : Crossword) (st : Store) (a : Assign)
    (hex : ∃ v ∈ cw.vars, keyIn v a = false ∧ (st v).length < 99999) :
    ∃ r, selectUnassignedVariable cw st a = some r ∧ r ∈ cw.vars ∧
      keyIn r a = false ∧
      (∀ u ∈ cw.vars, keyIn u a = false → (st r).length ≤ (st u).length) ∧
      (∀ u ∈ cw.vars, keyIn u a = false → (st u).length = (st r).length →
        degree cw u ≤ degree cw r) := by
  have hacc := select_acc cw st a
  rw [selectUnassignedVariable_eq]
  generalize hMV : suvLoop1 st a [((none, 99999) : MVEntry)] cw.vars = MV
    at hacc ⊢
  rcases hacc with ⟨ts, hmv, hts, hmin, htied⟩ |
    ⟨m, hm, hne, hhead, hent, hmin, htied⟩
  · -- the placeholder state contradicts the assumed small domain
    exfalso
    rcases hex with ⟨v, hv, hkv, hlen⟩
    have := hmin v hv hkv
    omega
  · rcases MV with _ | ⟨e0, tl⟩
    · cases hne rfl
    · rcases hent e0 (List.mem_cons_self _ _) with ⟨v0, he0, hv0, hkv0, hlen0⟩
      by_cases hlen1 : 1 < (e0 :: tl).length
      · rw [if_pos hlen1]
        simp only [List.headD_cons, List.tail_cons]
        -- every entry of the scanned list carries a tied variable
        have hgoodL : ∀ e ∈ ((e0.1, 0) : MVEntry) :: tl, ∃ u : Variable,
            e.1 = some u ∧ u ∈ cw.vars ∧ keyIn u a = false ∧
            (st u).length = m := by
          intro e he
          rcases List.mem_cons.mp he with h1 | h1
          · refine ⟨v0, ?_, hv0, hkv0, hlen0⟩
            rw [h1, he0]
          · rcases hent e (List.mem_cons_of_mem _ h1) with ⟨u, heu, h2, h3, h4⟩
            exact ⟨u, by rw [heu], h2, h3, h4⟩
        have hresspec : ∃ r : Variable,
            (suvLoop2 cw (e0.1, 0) (((e0.1, 0) : MVEntry) :: tl)).1 = some r ∧
            r ∈ cw.vars ∧ keyIn r a = false ∧ (st r).length = m ∧
            (suvLoop2 cw (e0.1, 0) (((e0.1, 0) : MVEntry) :: tl)).2 ≤
              degree cw r := by
          rcases suvLoop2_src cw (((e0.1, 0) : MVEntry) :: tl) (e0.1, 0) with
            h1 | ⟨e, he, h1⟩
          · refine ⟨v0, ?_, hv0, hkv0, hlen0, ?_⟩
            · rw [h1, he0]
            · rw [h1]
              exact Nat.zero_le _
          · rcases hgoodL e he with ⟨u, heu, h2, h3, h4⟩
            refine ⟨u, ?_, h2, h3, h4, ?_⟩
            · rw [h1, heu]
            · rw [h1, heu]
              exact Nat.le_refl _
        rcases hresspec with ⟨r, hres, hrv, hkr, hrlen, hrdeg⟩
        refine ⟨r, hres, hrv, hkr, ?_, ?_⟩
        · intro u hu hku
          rw [hrlen]
          exact hmin u hu hku
        · intro u hu hku hulen
          rw [hrlen] at hulen
          have hmem := htied u hu hku hulen
          have hentry : ∃ e ∈ ((e0.1, 0) : MVEntry) :: tl, e.1 = some u := by
            rcases List.mem_cons.mp hmem with h1 | h1
            · refine ⟨(e0.1, 0), List.mem_cons_self _ _, ?_⟩
              rw [he0]
              have : (some u : Option Variable) = some v0 := by
                have := congrArg Prod.fst h1
                rw [he0] at this
                exact this
              rw [Option.some.inj this]
            · exact ⟨(some u, m), List.mem_cons_of_mem _ h1, rfl⟩
          rcases hentry with ⟨e, he, heu⟩
          have := suvLoop2_max cw (((e0.1, 0) : MVEntry) :: tl) (e0.1, 0) e he
          rw [heu] at this
          exact Nat.le_trans this hrdeg
      · -- no tie: the single minimal entry is returned directly
        rw [if_neg hlen1]
        simp only [List.headD_cons]
        have htl : tl = [] := by
          rcases tl with _ | ⟨e1, tl'⟩
          · rfl
          · exfalso
            apply hlen1
            simp
        refine ⟨v0, by rw [he0], hv0, hkv0, ?_, ?_⟩
        · intro u hu hku
          rw [hlen0]
          exact hmin u hu hku
        · intro u hu hku hulen
          rw [hlen0] at hulen
          have hmem := htied u hu hku hulen
          rw [htl] at hmem
          have : ((some u, m) : MVEntry) = e0 := by simpa using hmem
          rw [he0] at this
          have := congrArg Prod.fst this
          simp only at this
          rw [Option.some.inj this]

theorem consistentGo_cons (cw : Crossword) (afull : Assign)
    (words : List Word) (var : Variable) (word : Word)
    (rest : Assign) :
    consistentGo cw afull words ((var, word) :: rest) =
      if var.length ≠ word.length ∨ word ∈ words then false
      else if (neighbors cw var).all (pairOK cw afull var word) then
        consistentGo cw afull (word :: words) rest
      else false := rfl

theorem consistentGo_cons_true_iff {cw : Crossword} {afull : Assign}
    {words : List Word} {var : Variable} {word : Word} {rest : Assign} :
    consistentGo cw afull words ((var, word) :: rest) = true ↔
      var.length = word.length ∧ word ∉ words ∧
      (neighbors cw var).all (pairOK cw afull var word) = true ∧
      consistentGo cw afull (word :: words) rest = true := by
  constructor
  · intro h
    rw [consistentGo_cons] at h
    by_cases h1 : var.length ≠ word.length ∨ word ∈ words
    · rw [if_pos h1] at h
      cases h
    · rw [if_neg h1] at h
      push_neg at h1
      by_cases h2 : (neighbors cw var).all (pairOK cw afull var word) = true
      · rw [if_pos h2] at h
        exact ⟨h1.1, h1.2, h2, h⟩
      · rw [if_neg h2] at h
        cases h
  · rintro ⟨ha, hb, hc, hd⟩
    rw [consistentGo_cons, if_neg (by push_neg; exact ⟨ha, hb⟩), if_pos hc]
    exact hd

theorem consistentGo_lengths {cw : Crossword} {afull : Assign} :
    ∀ {l : Assign} {words : List Word},
      consistentGo cw afull words l = true →
      ∀ p ∈ l, p.1.length = p.2.length := by
  intro l
  induction l with
  | nil => intro words _ p hp; cases hp
  | cons q rest ih =>
      intro words h p hp
      rcases q with ⟨var, word⟩
      rcases consistentGo_cons_true_iff.mp h with ⟨h1, _, _, h4⟩
      rcases List.mem_cons.mp hp with h5 | h5
      · rw [h5]
        exact h1
      · exact ih h4 p h5

theorem consistentGo_distinct {cw : Crossword} {afull : Assign} :
    ∀ {l : Assign} {words : List Word},
      consistentGo cw afull words l = true →
      l.Pairwise (fun p q => p.2 ≠ q.2) ∧ ∀ p ∈ l, p.2 ∉ words := by
  intro l
  induction l with
  | nil => intro words _; exact ⟨List.Pairwise.nil, by simp⟩
  | cons q rest ih =>
      intro words h
      rcases q with ⟨var, word⟩
      rcases consistentGo_cons_true_iff.mp h with ⟨_, h2, _, h4⟩
      rcases ih h4 with ⟨hpw, hnw⟩
      constructor
      · refine List.pairwise_cons.mpr ⟨?_, hpw⟩
        intro p hp he
        have := hnw p hp
        rw [← he] at this
        exact this (List.mem_cons_self _ _)
      · intro p hp
        rcases List.mem_cons.mp hp with h5 | h5
        · rw [h5]
          exact h2
        · intro hmem
          exact (hnw p h5) (List.mem_cons_of_mem _ hmem)

theorem consistentGo_pairs {cw : Crossword} {afull : Assign} :
    ∀ {l : Assign} {words : List Word},
      consistentGo cw afull words l = true →
      ∀ p ∈ l, ∀ nb ∈ neighbors cw p.1, pairOK cw afull p.1 p.2 nb = true := by
  intro l
  induction l with
  | nil => intro words _ p hp; cases hp
  | cons q rest ih =>
      intro words h p hp nb hnb
      rcases q with ⟨var, word⟩
      rcases consistentGo_cons_true_iff.mp h with ⟨_, _, h3, h4⟩
      rcases List.mem_cons.mp hp with h5 | h5
      · rw [h5] at hnb ⊢
        exact List.all_eq_true.mp h3 nb hnb
      · exact ih h4 p h5 nb hnb

theorem consistent_nil (cw : Crossword) : consistent cw [] = true := rfl

theorem goodA_nil (cw : Crossword) (st : Store) : GoodA cw st [] :=
  ⟨List.Pairwise.nil, by simp⟩

theorem goodA_updateA {cw : Crossword} {st : Store} {a : Assign}
    {var : Variable} {w : Word} (h : GoodA cw st a)
    (hky : keyIn var a = false) (hv : var ∈ cw.vars) (hw : w ∈ st var) :
    GoodA cw st (updateA a var w) := by
  refine ⟨nodupKeys_updateA h.1 hky, ?_⟩
  intro p hp
  rcases mem_updateA_of_not_keyIn hky hp with h1 | h1
  · exact h.2 p h1
  · rw [h1]
    exact ⟨hv, hw⟩

theorem goodA_popA {cw : Crossword} {st : Store} {a : Assign}
    (h : GoodA cw st a) (var : Variable) : GoodA cw st (popA a var) :=
  ⟨nodupKeys_popA h.1 var, fun p hp => h.2 p (mem_popA hp)⟩

theorem btList_nil (cw : Crossword) (bt : Assign → Option Assign × Assign)
    (var : Variable) (a : Assign) : btList cw bt var a [] = (none, a) := rfl

theorem btList_cons (cw : Crossword) (bt : Assign → Option Assign × Assign)
    (var : Variable) (a : Assign) (value : Word) (rest : List Word) :
    btList cw bt var a (value :: rest) =
      if consistent cw (updateA a var value) then
        match bt (updateA a var value) with
        | (some r, s) => (some r, s)
        | (none, s) => btList cw bt var (popA s var) rest
      else btList cw bt var (popA (updateA a var value) var) rest := rfl

theorem backtrackFuel_succ (cw : Crossword) (st : Store) (f : Nat)
    (a : Assign) :
    backtrackFuel cw st (f + 1) a =
      if assignmentComplete cw a then (some a, a)
      else
        match selectUnassignedVariable cw st a with
        | none => (none, a)
        | some var =>
            btList cw (backtrackFuel cw st f) var a
              (orderDomainValues cw st var a) := rfl

theorem btListMaster {cw : Crossword} {st : Store}
    {bt : Assign → Option Assign × Assign}
    (hbt : ∀ a', GoodA cw st a' → consistent cw a' = true →
      GoodA cw st (bt a').2 ∧
      ∀ r, (bt a').1 = some r → (bt a').2 = r ∧ GoodA cw st r ∧
        consistent cw r = true ∧ assignmentComplete cw r = true)
    {var : Variable} (hvar : var ∈ cw.vars) :
    ∀ (l : List Word), (∀ w ∈ l, w ∈ st var) →
    ∀ (aCur : Assign), GoodA cw st aCur → keyIn var aCur = false →
      GoodA cw st (btList cw bt var aCur l).2 ∧
      ∀ r, (btList cw bt var aCur l).1 = some r →
        (btList cw bt var aCur l).2 = r ∧ GoodA cw st r ∧
        consistent cw r = true ∧ assignmentComplete cw r = true := by
  intro l
  induction l with
  | nil =>
      intro _ aCur hgood _
      rw [btList_nil]
      exact ⟨hgood, fun r hr => by cases hr⟩
  | cons value rest ih =>
      intro hl aCur hgood hky
      have hgood1 : GoodA cw st (updateA aCur var value) :=
        goodA_updateA hgood hky hvar (hl value (List.mem_cons_self _ _))
      have hl' : ∀ w ∈ rest, w ∈ st var :=
        fun w hw => hl w (List.mem_cons_of_mem _ hw)
      rw [btList_cons]
      by_cases hcons : consistent cw (updateA aCur var value) = true
      · rw [if_pos hcons]
        rcases hb : bt (updateA aCur var value) with ⟨or, s⟩
        have hbspec := hbt (updateA aCur var value) hgood1 hcons
        rw [hb] at hbspec
        rcases or with _ | r0
        · -- the recursive call failed: pop and try the next value
          have hsgood : GoodA cw st s := hbspec.1
          exact ih hl' (popA s var) (goodA_popA hsgood var)
            (keyIn_popA_eq_false s var)
        · -- the recursive call succeeded: propagate
          rcases hbspec.2 r0 rfl with ⟨hse, hrg, hrc, hrcomp⟩
          have hse' : s = r0 := hse
          refine ⟨?_, ?_⟩
          · show GoodA cw st s
            rw [hse']
            exact hrg
          · intro r hr
            have hr0 : r0 = r := Option.some.inj hr
            refine ⟨?_, ?_, ?_, ?_⟩
            · show s = r
              rw [hse', hr0]
            · rw [← hr0]
              exact hrg
            · rw [← hr0]
              exact hrc
            · rw [← hr0]
              exact hrcomp
      · rw [if_neg hcons]
        exact ih hl' (popA (updateA aCur var value) var)
          (goodA_popA hgood1 var) (keyIn_popA_eq_false _ var)

theorem backtrackFuelMaster (cw : Crossword) (st : Store) :
    ∀ (f : Nat) (a : Assign), GoodA cw st a → consistent cw a = true →
      GoodA cw st (backtrackFuel cw st f a).2 ∧
      ∀ r, (backtrackFuel cw st f a).1 = some r →
        (backtrackFuel cw st f a).2 = r ∧ GoodA cw st r ∧
        consistent cw r = true ∧ assignmentComplete cw r = true := by
  intro f
  induction f with
  | zero =>
      intro a hgood _
      exact ⟨hgood, fun r hr => by cases hr⟩
  | succ f ih =>
      intro a hgood hcons
      rw [backtrackFuel_succ]
      by_cases hcomp : assignmentComplete cw a = true
      · rw [if_pos hcomp]
        exact ⟨hgood, fun r hr => by
          have : a = r := Option.some.inj hr
          rw [← this]
          exact ⟨rfl, hgood, hcons, hcomp⟩⟩
      · rw [if_neg hcomp]
        rcases hsel : selectUnassignedVariable cw st a with _ | var
        · exact ⟨hgood, fun r hr => by cases hr⟩
        · rcases select_eq_some hsel with ⟨hvar, hky⟩
          exact btListMaster ih hvar (orderDomainValues cw st var a)
            (fun w hw => mem_orderDomainValues hw) a hgood hky

theorem backtrackMaster {cw : Crossword} {st : Store} {a : Assign}
    (hgood : GoodA cw st a) (hcons : consistent cw a = true) :
    GoodA cw st (backtrack cw st a).2 ∧
    ∀ r, (backtrack cw st a).1 = some r →
      (backtrack cw st a).2 = r ∧ GoodA cw st r ∧
      consistent cw r = true ∧ assignmentComplete cw r = true :=
  backtrackFuelMaster cw st _ a hgood hcons

theorem filter_length_mono {α : Type} (p q : α → Bool) :
    ∀ l : List α, (∀ x ∈ l, q x = true → p x = true) →
      (l.filter q).length ≤ (l.filter p).length := by
  intro l
  induction l with
  | nil => intro _; exact Nat.le_refl _
  | cons y ys ih =>
      intro h
      have hys := fun x hx => h x (List.mem_cons_of_mem _ hx)
      rcases hq : q y with _ | _
      · rcases hp : p y with _ | _
        · simpa [List.filter_cons, hq, hp] using ih hys
        · simp only [List.filter_cons, hq, hp]
          simp only [Bool.false_eq_true, if_false, if_true, List.length_cons]
          exact Nat.le_succ_of_le (ih hys)
      · have hp : p y = true := h y (List.mem_cons_self _ _) hq
        simp only [List.filter_cons, hq, hp, if_true, List.length_cons]
        exact Nat.succ_le_succ (ih hys)

theorem filter_length_lt {α : Type} (p q : α → Bool) :
    ∀ l : List α, (∀ x ∈ l, q x = true → p x = true) →
      (∃ x ∈ l, p x = true ∧ q x = false) →
      (l.filter q).length < (l.filter p).length := by
  intro l
  induction l with
  | nil =>
      intro _ hw
      rcases hw with ⟨x, hx, _⟩
      cases hx
  | cons y ys ih =>
      intro h hw
      have hys := fun x hx => h x (List.mem_cons_of_mem _ hx)
      rcases hw with ⟨x, hx, hpx, hqx⟩
      rcases List.mem_cons.mp hx with hxy | hxy
      · have hqy : q y = false := by
          rw [← hxy]
          exact hqx
        have hpy : p y = true := by
          rw [← hxy]
          exact hpx
        simp only [List.filter_cons, hqy, hpy, Bool.false_eq_true, if_false,
          if_true, List.length_cons]
        exact Nat.lt_succ_of_le (filter_length_mono p q ys hys)
      · have hlt := ih hys ⟨x, hxy, hpx, hqx⟩
        rcases hq : q y with _ | _
        · rcases hp : p y with _ | _
          · simpa [List.filter_cons, hq, hp] using hlt
          · simp only [List.filter_cons, hq, hp, Bool.false_eq_true, if_false,
              if_true, List.length_cons]
            exact Nat.lt_succ_of_lt hlt
        · have hp : p y = true := h y (List.mem_cons_self _ _) hq
          simp only [List.filter_cons, hq, hp, if_true, List.length_cons]
          exact Nat.succ_lt_succ hlt

theorem keyIn_mono_updateA {a : Assign} {var u : Variable} {w : Word}
    (hky : keyIn var a = false) (h : keyIn u a = true) :
    keyIn u (updateA a var w) = true := by
  rw [updateA_of_not_keyIn hky, keyIn, List.any_append]
  rw [keyIn] at h
  rw [h]
  rfl

theorem keyIn_updateA_self {a : Assign} {var : Variable} {w : Word}
    (hky : keyIn var a = false) : keyIn var (updateA a var w) = true := by
  rw [updateA_of_not_keyIn hky]
  apply keyIn_eq_true_iff.mpr
  exact ⟨w, List.mem_append.mpr (Or.inr (List.mem_cons_self _ _))⟩

theorem unassignedCount_updateA_lt {cw : Crossword} {a : Assign}
    {var : Variable} {w : Word} (hvar : var ∈ cw.vars)
    (hky : keyIn var a = false) :
    unassignedCount cw (updateA a var w) < unassignedCount cw a := by
  apply filter_length_lt
  · intro x _ hq
    rcases hk : keyIn x a with _ | _
    · rfl
    · exfalso
      have := keyIn_mono_updateA hky hk (w := w)
      rw [this] at hq
      cases hq
  · refine ⟨var, hvar, ?_, ?_⟩
    · rw [hky]
      rfl
    · rw [keyIn_updateA_self hky]
      rfl

theorem btRestoreFuel (cw : Crossword) (st : Store) :
    ∀ (f : Nat) (a : Assign), unassignedCount cw a < f →
      ((backtrackFuel cw st f a).1 = none →
        (backtrackFuel cw st f a).2 = a) ∧
      (∀ r, (backtrackFuel cw st f a).1 = some r →
        (backtrackFuel cw st f a).2 = r ∧ ∃ t, r = a ++ t) := by
  intro f
  induction f with
  | zero =>
      intro a h
      exact absurd h (Nat.not_lt_zero _)
  | succ f ih =>
      intro a hcount
      rw [backtrackFuel_succ]
      by_cases hcomp : assignmentComplete cw a = true
      · rw [if_pos hcomp]
        constructor
        · intro h
          cases h
        · intro r hr
          have har : a = r := Option.some.inj hr
          exact ⟨har, ⟨[], by rw [← har]; simp⟩⟩
      · rw [if_neg hcomp]
        rcases hsel : selectUnassignedVariable cw st a with _ | var
        · exact ⟨fun _ => rfl, fun r hr => by cases hr⟩
        · rcases select_eq_some hsel with ⟨hvar, hky⟩
          have hinner : ∀ l : List Word,
              ((btList cw (backtrackFuel cw st f) var a l).1 = none →
                (btList cw (backtrackFuel cw st f) var a l).2 = a) ∧
              (∀ r, (btList cw (backtrackFuel cw st f) var a l).1 = some r →
                (btList cw (backtrackFuel cw st f) var a l).2 = r ∧
                ∃ t, r = a ++ t) := by
            intro l
            induction l with
            | nil =>
                rw [btList_nil]
                exact ⟨fun _ => rfl, fun r hr => by cases hr⟩
            | cons value rest ihl =>
                rw [btList_cons]
                have ha1U : unassignedCount cw (updateA a var value) < f :=
                  Nat.lt_of_lt_of_le (unassignedCount_updateA_lt hvar hky)
                    (Nat.lt_succ_iff.mp hcount)
                by_cases hcons : consistent cw (updateA a var value) = true
                · rw [if_pos hcons]
                  rcases hb : backtrackFuel cw st f (updateA a var value) with
                    ⟨or, s⟩
                  have hspec := ih (updateA a var value) ha1U
                  rw [hb] at hspec
                  rcases or with _ | r0
                  · have hs : s = updateA a var value := hspec.1 rfl
                    have hpa : popA s var = a := by
                      rw [hs]
                      exact popA_updateA hky
                    show ((btList cw (backtrackFuel cw st f) var
                        (popA s var) rest).1 = none →
                        (btList cw (backtrackFuel cw st f) var
                          (popA s var) rest).2 = a) ∧
                      (∀ r, (btList cw (backtrackFuel cw st f) var
                          (popA s var) rest).1 = some r →
                        (btList cw (backtrackFuel cw st f) var
                          (popA s var) rest).2 = r ∧ ∃ t, r = a ++ t)
                    rw [hpa]
                    exact ihl
                  · rcases hspec.2 r0 rfl with ⟨hs, t, ht⟩
                    have hs' : s = r0 := hs
                    constructor
                    · intro h
                      cases h
                    · intro r hr
                      have hr0 : r0 = r := Option.some.inj hr
                      constructor
                      · show s = r
                        rw [hs', hr0]
                      · refine ⟨(var, value) :: t, ?_⟩
                        rw [← hr0, ht, updateA_of_not_keyIn hky]
                        simp
                · rw [if_neg hcons, popA_updateA hky]
                  exact ihl
          exact hinner (orderDomainValues cw st var a)

theorem backtrackRestore (cw : Crossword) (st : Store) (a : Assign) :
    ((backtrack cw st a).1 = none → (backtrack cw st a).2 = a) ∧
    (∀ r, (backtrack cw st a).1 = some r →
      (backtrack cw st a).2 = r ∧ ∃ t, r = a ++ t) :=
  btRestoreFuel cw st (unassignedCount cw a + 1) a (Nat.lt_succ_self _)

theorem hasSupport_eq_false_iff {st : Store} {y : Variable} {i j : Nat}
    {w : Word} :
    hasSupport st y i j w = false ↔
      ∀ v ∈ st y, w.getD i ' ' ≠ v.getD j ' ' := by
  simp [hasSupport, List.any_eq_false]

theorem pairOK_agree {cw : Crossword} {afull : Assign} {var nb : Variable}
    {word wnb : Word} {i j : Nat} (h : pairOK cw afull var word nb = true)
    (hlook : lookupA afull nb = some wnb)
    (hov : cw.overlaps var nb = some (i, j)) :
    word.getD i ' ' = wnb.getD j ' ' := by
  rw [pairOK, hlook, hov] at h
  simpa using h

theorem ac3Fuel_false_empty (cw : Crossword) :
    ∀ (f : Nat) (Q : List (Variable × Variable)) (st st₂ : Store),
      (∀ p ∈ Q, p.1 ∈ cw.vars ∧ p.2 ∈ cw.vars) →
      ac3Fuel cw f Q st = (some false, st₂) → ∃ x ∈ cw.vars, st₂ x = [] := by
  intro f
  induction f with
  | zero =>
      intro Q st st₂ _ h
      simp [ac3Fuel] at h
  | succ f ih =>
      intro Q st st₂ hQ h
      match Q with
      | [] =>
          simp only [ac3Fuel, Prod.mk.injEq] at h
          cases h.1
      | (x, y) :: rest =>
          have hx : x ∈ cw.vars := (hQ (x, y) (List.mem_cons_self _ _)).1
          simp only [ac3Fuel] at h
          by_cases h2 : (revise cw st x y).2 = true
          · simp only [h2, if_true] at h
            by_cases h3 : ((revise cw st x y).1 x).isEmpty = true
            · simp only [h3, if_true, Prod.mk.injEq] at h
              refine ⟨x, hx, ?_⟩
              rw [← h.2]
              exact List.isEmpty_iff.mp h3
            · simp only [h3, if_false] at h
              refine ih _ _ _ ?_ h
              intro p hp
              rcases (mem_foldl_cons_iff (fun z => (z, x)) _ _ _).mp hp with
                h4 | ⟨z, h4, h5⟩
              · exact hQ p (List.mem_cons_of_mem _ h4)
              · rw [h5]
                exact ⟨(mem_neighbors.mp (List.mem_filter.mp h4).1).1, hx⟩
          · simp only [Bool.not_eq_true] at h2
            simp only [h2, Bool.false_eq_true, if_false] at h
            refine ih _ _ _ ?_ h
            intro p hp
            exact hQ p (List.mem_cons_of_mem _ hp)

theorem solve_eq (cw : Crossword) :
    solve cw = (backtrack cw (solveStore2 cw) []).1 := rfl

theorem solveTraced_eq (cw : Crossword) :
    solveTraced cw = (solve cw, true) := rfl

theorem solve_some_props {cw : Crossword} {r : Assign}
    (h : solve cw = some r) :
    GoodA cw (solveStore2 cw) r ∧ consistent cw r = true ∧
      assignmentComplete cw r = true := by
  have hm := backtrackMaster (goodA_nil cw (solveStore2 cw))
    (consistent_nil cw)
  have hs : (backtrack cw (solveStore2 cw) []).1 = some r := h
  rcases hm.2 r hs with ⟨_, hg, hc, hcomp⟩
  exact ⟨hg, hc, hcomp⟩

theorem solve_none_of_ac3_false {cw : Crossword}
    (h : (ac3 cw (solveStore1 cw)).1 = some false) : solve cw = none := by
  rcases hs : solve cw with _ | r
  · rfl
  · exfalso
    have hpair : ac3Fuel cw (bigFuel cw (solveStore1 cw)) (initialArcs cw)
        (solveStore1 cw) =
        (some false, (ac3 cw (solveStore1 cw)).2) := by
      have hrfl : ac3 cw (solveStore1 cw) =
          ((ac3 cw (solveStore1 cw)).1, (ac3 cw (solveStore1 cw)).2) := rfl
      rw [← h]
      exact hrfl
    rcases ac3Fuel_false_empty cw _ _ _ _
      (fun p hp => initialArcs_vars hp) hpair with ⟨x, hx, hempty⟩
    rcases solve_some_props hs with ⟨hg, _, hcomp⟩
    have hkx : keyIn x r = true := by
      have := List.all_eq_true.mp hcomp x hx
      simpa using this
    rcases keyIn_eq_true_iff.mp hkx with ⟨w, hw⟩
    have := (hg.2 (x, w) hw).2
    have hst2 : (solveStore2 cw) x = [] := hempty
    rw [hst2] at this
    cases this

/-- C1: every assignment returned by `solve()` binds every Variable of the
crossword, every assigned word has length equal to its Variable's length, all
assigned words are pairwise distinct, and every pair of assigned Variables
with a recorded overlap (i, j) agrees at those positions. -/
theorem claim1_solve_assignments_valid (cw : Crossword) (r : Assign)
    (h : solve cw = some r) :
    (∀ v ∈ cw.vars, ∃ w, lookupA r v = some w) ∧
    (∀ p ∈ r, p.1.length = p.2.length) ∧
    r.Pairwise (fun p q => p.2 ≠ q.2) ∧
    (∀ u v wu wv i j, (u, wu) ∈ r → (v, wv) ∈ r → u ≠ v →
      cw.overlaps u v = some (i, j) → wu.getD i ' ' = wv.getD j ' ') := by
  rcases solve_some_props h with ⟨hg, hc, hcomp⟩
  have hc' : consistentGo cw r [] r = true := hc
  refine ⟨?_, ?_, ?_, ?_⟩
  · intro v hv
    have hk : keyIn v r = true := by
      have := List.all_eq_true.mp hcomp v hv
      simpa using this
    rcases keyIn_eq_true_iff.mp hk with ⟨w, hw⟩
    exact ⟨w, lookupA_eq_some_of_mem hg.1 hw⟩
  · exact consistentGo_lengths hc'
  · exact (consistentGo_distinct hc').1
  · intro u v wu wv i j hu hv hne hov
    have hvv : v ∈ cw.vars := (hg.2 (v, wv) hv).1
    have hnb : v ∈ neighbors cw u :=
      mem_neighbors.mpr ⟨hvv, Ne.symm hne, by rw [hov]; rfl⟩
    have hp := consistentGo_pairs hc' (u, wu) hu v hnb
    exact pairOK_agree hp (lookupA_eq_some_of_mem hg.1 hv) hov

/-- Witness for C1 at the concrete crossword `cwA`. -/
theorem claim1_witness :
    solve cwA = some aFullA ∧
    ((∀ v ∈ cwA.vars, ∃ w, lookupA aFullA v = some w) ∧
     (∀ p ∈ aFullA, p.1.length = p.2.length) ∧
     aFullA.Pairwise (fun p q => p.2 ≠ q.2) ∧
     (∀ u v wu wv i j, (u, wu) ∈ aFullA → (v, wv) ∈ aFullA → u ≠ v →
       cwA.overlaps u v = some (i, j) → wu.getD i ' ' = wv.getD j ' ')) :=
  ⟨by decide, claim1_solve_assignments_valid cwA aFullA (by decide)⟩

/-- C2 counterexample: on `cwB` the AC-3 pass over the full domain store
reports failure, yet the source's `solve` still invokes backtracking search
(the instrumentation flag is `true`, where the spec's short-circuiting
orchestration would not enter search); and in the isolated-slot scenario the
node-consistency pass empties a domain but `ac3` reports success, with search
again entered. -/
theorem claim2_counterexample :
    (ac3 cwB (solveStore1 cwB)).1 = some false ∧
    solveTraced cwB = (none, true) ∧
    solveTraced cwB ≠ solveSpecShortCircuit cwB ∧
    (ac3 cwIso (solveStore1 cwIso)).1 = some true ∧
    solveTraced cwIso = (none, true) := by
  refine ⟨by decide, by decide, ?_, by decide, by decide⟩
  decide

/-- C2 (amended): `solve()` always invokes backtracking search (it discards
the Boolean of `ac3`), but whenever the AC-3 pass over the full domain store
reports failure the overall result is still the no-solution result, because
the emptied domain leaves the search no candidates. -/
theorem claim2_amended_ac3_failure_means_no_solution (cw : Crossword)
    (h : (ac3 cw (solveStore1 cw)).1 = some false) :
    solveTraced cw = (none, true) := by
  rw [solveTraced_eq, solve_none_of_ac3_false h]

/-- Witness for the amended C2 at the concrete crossword `cwB`. -/
theorem claim2_witness :
    (ac3 cwB (solveStore1 cwB)).1 = some false ∧
    solveTraced cwB = (none, true) :=
  ⟨by decide, claim2_amended_ac3_failure_means_no_solution cwB (by decide)⟩

/-- C3: if `ac3()` returns false, no complete assignment maps each Variable
to a word of its domain (as the domains stood when `ac3` was called) while
satisfying all overlap constraints. -/
theorem claim3_ac3_failure_sound (cw : Crossword) (st : Store)
    (h : (ac3 cw st).1 = some false) :
    ¬ ∃ α : Variable → Word, InDomains cw st α ∧ Satisfies cw α := by
  rintro ⟨α, hd, hs⟩
  have hpair : ac3Fuel cw (bigFuel cw st) (initialArcs cw) st =
      ((ac3 cw st).1, (ac3 cw st).2) := rfl
  have hne := ac3Fuel_sound cw hs (bigFuel cw st) (initialArcs cw) st
    (fun p hp => initialArcs_vars hp) hd
  apply hne
  rw [hpair, h]

/-- Witness for C3 at the concrete crossword `cwB`. -/
theorem claim3_witness :
    (ac3 cwB stB).1 = some false ∧
    ¬ ∃ α : Variable → Word, InDomains cwB stB α ∧ Satisfies cwB α :=
  ⟨by decide, claim3_ac3_failure_sound cwB stB (by decide)⟩

/-- C4 (code bug, evaluated): `order_domain_values` counts every neighbor
whose domain holds the candidate word — assigned neighbors included — so on
`cw4` it returns ["aaa", "bbb"] although the claimed score (over unassigned
neighbors only) of "aaa" is 1 and of "bbb" is 0: the returned order is not
ascending in the claimed score. -/
theorem claim4_lcv_counts_assigned_neighbors :
    orderDomainValues cw4 st4 X4 a4 = [wordA3, wordB3] ∧
    specLcvScore cw4 st4 a4 X4 wordA3 = 1 ∧
    specLcvScore cw4 st4 a4 X4 wordB3 = 0 := by
  decide

/-- C5: with a recorded overlap (i, j), `revise(x, y)` keeps exactly the words
of x's domain that some word of y's domain supports, leaves every other domain
(including y's) unchanged, and returns true iff something was removed; with no
recorded overlap it is a no-op returning false. -/
theorem claim5_revise_spec (cw : Crossword) (st : Store) (x y : Variable)
    (hwf : cw.WF) (hx : x ∈ cw.vars) (hy : y ∈ cw.vars) :
    (∀ i j, cw.overlaps x y = some (i, j) →
      (∀ w, w ∈ (revise cw st x y).1 x ↔
        w ∈ st x ∧ ∃ v ∈ st y, w.getD i ' ' = v.getD j ' ') ∧
      ((revise cw st x y).1 y = st y) ∧
      (∀ z, z ≠ x → (revise cw st x y).1 z = st z) ∧
      ((revise cw st x y).2 = true ↔
        ∃ w ∈ st x, ∀ v ∈ st y, w.getD i ' ' ≠ v.getD j ' ')) ∧
    (cw.overlaps x y = none → revise cw st x y = (st, false)) := by
  constructor
  · intro i j hov
    have hxy : x ≠ y := ne_of_overlap_some hwf hx hov
    refine ⟨?_, ?_, ?_, ?_⟩
    · intro w
      rw [revise_fst_self hov]
      constructor
      · intro hw
        have h1 := List.mem_filter.mp hw
        exact ⟨h1.1, hasSupport_eq_true_iff.mp h1.2⟩
      · rintro ⟨h1, h2⟩
        exact List.mem_filter.mpr ⟨h1, hasSupport_eq_true_iff.mpr h2⟩
    · exact revise_fst_other (Ne.symm hxy)
    · intro z hz
      exact revise_fst_other hz
    · rw [revise_snd_iff hov]
      constructor
      · rintro ⟨w, hw, hf⟩
        exact ⟨w, hw, hasSupport_eq_false_iff.mp hf⟩
      · rintro ⟨w, hw, hf⟩
        exact ⟨w, hw, hasSupport_eq_false_iff.mpr hf⟩
  · intro h
    exact revise_none h

/-- Witness for C5 at the concrete crossword `cwA` and its recorded overlap
between `XA` and `YA`. -/
theorem claim5_witness :
    cwA.overlaps XA YA = some (1, 0) ∧
    ((∀ w, w ∈ (revise cwA stA XA YA).1 XA ↔
        w ∈ stA XA ∧ ∃ v ∈ stA YA, w.getD 1 ' ' = v.getD 0 ' ') ∧
     ((revise cwA stA XA YA).1 YA = stA YA) ∧
     (∀ z, z ≠ XA → (revise cwA stA XA YA).1 z = stA z) ∧
     ((revise cwA stA XA YA).2 = true ↔
        ∃ w ∈ stA XA, ∀ v ∈ stA YA, w.getD 1 ' ' ≠ v.getD 0 ' ')) :=
  ⟨by decide,
   (claim5_revise_spec cwA stA XA YA (by decide) (by decide) (by decide)).1
     1 0 (by decide)⟩

/-- C6 counterexample: with one unassigned Variable whose domain holds 100000
words, `select_unassigned_variable` falls through to its `99999` placeholder
(modelled as `none`) instead of returning a Variable. -/
theorem claim6_counterexample :
    V6 ∈ cw6.vars ∧ keyIn V6 [] = false ∧ (st6 V6).length = 100000 ∧
    selectUnassignedVariable cw6 st6 [] = none := by
  have hbd : bigDomain.length = 100000 := by
    show ((List.range 100000).map
      (fun n => [Char.ofNat (57344 + n)])).length = 100000
    rw [List.length_map, List.length_range]
  have hdc : domainCount (st6 V6) = 100000 := by
    rw [domainCount_eq_length]
    exact hbd
  refine ⟨by decide, rfl, hbd, ?_⟩
  rw [selectUnassignedVariable_eq]
  have hc1 : ¬(domainCount (st6 V6) <
      (([((none, 99999) : MVEntry)]).headD ((none, 99999) : MVEntry)).2) := by
    rw [hdc]
    decide
  have hc2 : ¬(domainCount (st6 V6) =
      (([((none, 99999) : MVEntry)]).headD ((none, 99999) : MVEntry)).2) := by
    rw [hdc]
    decide
  have h1 : suvLoop1 st6 [] [((none, 99999) : MVEntry)] cw6.vars =
      [((none, 99999) : MVEntry)] := by
    show suvLoop1 st6 [] [((none, 99999) : MVEntry)] [V6] =
      [((none, 99999) : MVEntry)]
    rw [suvLoop1_cons, if_neg (by decide : ¬ keyIn V6 [] = true),
      if_neg hc1, if_neg hc2]
    rfl
  rw [h1]
  rfl

/-- C6 (amended): provided some unassigned Variable's domain holds fewer than
99999 words, `select_unassigned_variable` returns an unassigned Variable of
minimal domain size, of maximal degree among those tied at that size. -/
theorem claim6_amended_select_mrv_degree (cw : Crossword) (st : Store)
    (a : Assign)
    (hex : ∃ v ∈ cw.vars, keyIn v a = false ∧ (st v).length < 99999) :
    ∃ r, selectUnassignedVariable cw st a = some r ∧ r ∈ cw.vars ∧
      keyIn r a = false ∧
      (∀ u ∈ cw.vars, keyIn u a = false → (st r).length ≤ (st u).length) ∧
      (∀ u ∈ cw.vars, keyIn u a = false → (st u).length = (st r).length →
        degree cw u ≤ degree cw r) :=
  select_spec_strong cw st a hex

/-- Witness for the amended C6 at the concrete crossword `cwW6`. -/
theorem claim6_witness :
    (∃ v ∈ cwW6.vars, keyIn v [] = false ∧ (stW6 v).length < 99999) ∧
    (∃ r, selectUnassignedVariable cwW6 stW6 [] = some r ∧ r ∈ cwW6.vars ∧
      keyIn r [] = false ∧
      (∀ u ∈ cwW6.vars, keyIn u [] = false →
        (stW6 r).length ≤ (stW6 u).length) ∧
      (∀ u ∈ cwW6.vars, keyIn u [] = false →
        (stW6 u).length = (stW6 r).length →
        degree cwW6 u ≤ degree cwW6 r)) :=
  ⟨by decide, claim6_amended_select_mrv_degree cwW6 stW6 [] (by decide)⟩

/-- C7: immediately after `ac3()` returned true, a second call (with no
explicit arcs argument) removes no word from any domain — the final store is
unchanged — and returns true. -/
theorem claim7_ac3_idempotent (cw : Crossword) (st : Store) (hwf : cw.WF)
    (h : (ac3 cw st).1 = some true) :
    (ac3 cw ((ac3 cw st).2)).1 = some true ∧
    (ac3 cw ((ac3 cw st).2)).2 = (ac3 cw st).2 := by
  have hpair : ac3Fuel cw (bigFuel cw st) (initialArcs cw) st =
      (some true, (ac3 cw st).2) := by
    have hrfl : ac3 cw st = ((ac3 cw st).1, (ac3 cw st).2) := rfl
    rw [← h]
    exact hrfl
  have hinv : AInv cw (initialArcs cw) st := by
    intro x hx y hy i j hov
    right
    apply mem_initialArcs_iff.mpr
    refine ⟨x, hx, y, ?_, ne_of_overlap_some hwf hx hov, rfl⟩
    exact mem_neighbors.mpr ⟨hy, (ne_of_overlap_some hwf hx hov).symm,
      by rw [hov]; rfl⟩
  have hOK : AllArcsOK cw ((ac3 cw st).2) :=
    ac3Fuel_true_allArcsOK hwf _ _ _ _ (fun p hp => initialArcs_vars hp)
      hinv hpair
  have hnoop : ∀ x y : Variable, (x, y) ∈ initialArcs cw →
      revise cw ((ac3 cw st).2) x y = ((ac3 cw st).2, false) := by
    intro x y hxy
    rcases mem_initialArcs_iff.mp hxy with ⟨x', hx', y', hy', hne, hpe⟩
    have hx1 : x = x' := congrArg Prod.fst hpe
    have hy1 : y = y' := congrArg Prod.snd hpe
    rcases mem_neighbors.mp hy' with ⟨hyv, _, hovS⟩
    rcases ho : cw.overlaps x' y' with _ | ⟨i, j⟩
    · rw [ho] at hovS
      simp at hovS
    · apply revise_of_arcOK (by rw [hx1, hy1]; exact ho)
      intro w hw
      exact hOK x (by rw [hx1]; exact hx') y (by rw [hy1]; exact hyv) i j
        (by rw [hx1, hy1]; exact ho) w hw
  have hlen : (initialArcs cw).length < bigFuel cw ((ac3 cw st).2) := by
    show (initialArcs cw).length <
      totalSize cw ((ac3 cw st).2) * (cw.vars.length + 1) +
        (initialArcs cw).length + 1
    exact Nat.lt_succ_of_le (Nat.le_add_left _ _)
  have hrun := ac3Fuel_noop cw (initialArcs cw) ((ac3 cw st).2)
    (bigFuel cw ((ac3 cw st).2)) hnoop hlen
  constructor
  · show (ac3Fuel cw (bigFuel cw ((ac3 cw st).2)) (initialArcs cw)
      ((ac3 cw st).2)).1 = some true
    rw [hrun]
  · show (ac3Fuel cw (bigFuel cw ((ac3 cw st).2)) (initialArcs cw)
      ((ac3 cw st).2)).2 = (ac3 cw st).2
    rw [hrun]

/-- Witness for C7 at the concrete crossword `cwA`. -/
theorem claim7_witness :
    cwA.WF ∧ (ac3 cwA stA).1 = some true ∧
    ((ac3 cwA ((ac3 cwA stA).2)).1 = some true ∧
     (ac3 cwA ((ac3 cwA stA).2)).2 = (ac3 cwA stA).2) :=
  ⟨by decide, by decide, claim7_ac3_idempotent cwA stA (by decide) (by decide)⟩

/-- C8: node consistency leaves only words of the variable's length; `revise`
and `ac3` only remove words, never insert; hence the store `backtrack` runs on
in `solve` still satisfies the length invariant. -/
theorem claim8_domain_length_invariant (cw : Crossword) (st : Store) :
    (∀ v ∈ cw.vars, ∀ w ∈ enforceNodeConsistency cw st v,
      v.length = w.length) ∧
    (∀ (st' : Store) (x y z : Variable) (w : Word),
      w ∈ (revise cw st' x y).1 z → w ∈ st' z) ∧
    (∀ (st' : Store) (v : Variable) (w : Word),
      w ∈ (ac3 cw st').2 v → w ∈ st' v) ∧
    (∀ v ∈ cw.vars, ∀ w ∈ solveStore2 cw v, v.length = w.length) := by
  refine ⟨?_, ?_, ?_, ?_⟩
  · intro v hv w hw
    exact length_of_mem_enforceNodeConsistency cw cw.vars st v hv w hw
  · intro st' x y z w hw
    exact revise_subset hw
  · intro st' v w hw
    exact ac3_subset hw
  · intro v hv w hw
    have h2 : w ∈ solveStore1 cw v := ac3_subset hw
    exact length_of_mem_enforceNodeConsistency cw cw.vars
      (initialDomains cw) v hv w h2

/-- Witness for C8 at the concrete crossword `cwA`. -/
theorem claim8_witness :
    ((['a', 'b'] : Word) ∈ enforceNodeConsistency cwA stA XA ∧
      XA ∈ cwA.vars) ∧
    XA.length = (['a', 'b'] : Word).length :=
  ⟨⟨by decide, by decide⟩,
   (claim8_domain_length_invariant cwA stA).1 XA (by decide)
     ['a', 'b'] (by decide)⟩

/-- C9: whenever `backtrack(assignment)` returns the failure result the
assignment is exactly what it was at the call — every tentative entry has been
removed — and a successful result only extends the incoming assignment. -/
theorem claim9_backtrack_restores_assignment (cw : Crossword) (st : Store)
    (a : Assign) :
    ((backtrack cw st a).1 = none → (backtrack cw st a).2 = a) ∧
    (∀ r, (backtrack cw st a).1 = some r →
      (backtrack cw st a).2 = r ∧ ∃ t, r = a ++ t) :=
  backtrackRestore cw st a

/-- Witness for C9 at the concrete crossword `cwU` (empty domain, so the
search fails and hands back the untouched empty assignment). -/
theorem claim9_witness :
    (backtrack cwU stU []).1 = none ∧ (backtrack cwU stU []).2 = [] :=
  ⟨by decide, (claim9_backtrack_restores_assignment cwU stU []).1 (by decide)⟩

/-- C10: on an assignment binding every Variable,
`select_unassigned_variable` falls through to its integer placeholder (the
sentinel, modelled `none`) rather than returning a Variable — and `backtrack`
never reaches it then, because its completeness check returns first. -/
theorem claim10_select_sentinel_on_complete (cw : Crossword) (st : Store)
    (a : Assign) (h : assignmentComplete cw a = true) :
    selectUnassignedVariable cw st a = none ∧
    backtrack cw st a = (some a, a) := by
  constructor
  · exact select_of_complete h
  · show backtrackFuel cw st (unassignedCount cw a + 1) a = (some a, a)
    rw [backtrackFuel_succ, if_pos h]

/-- Witness for C10 at the concrete crossword `cwA` with its complete
assignment. -/
theorem claim10_witness :
    assignmentComplete cwA aFullA = true ∧
    (selectUnassignedVariable cwA stA aFullA = none ∧
     backtrack cwA stA aFullA = (some aFullA, aFullA)) :=
  ⟨by decide, claim10_select_sentinel_on_complete cwA stA aFullA (by decide)⟩
